import Mathlib

/-!
Verification development for the ffdb storage engine
(`src/ffdb/ffindex.py` and `src/ffdb/scripts/split.py`).

Shallow embedding conventions:
* bytes are `Nat` values, byte strings are `List Nat`;
* a seekable binary file is its current contents, a `List Nat`;
* Python mutation is explicit state passing: a method on state `σ`
  returning `ρ` becomes `σ → ... → σ × Option ρ`, where the `Option`
  is `none` when the method raises (failed `assert`, `ValueError`,
  `KeyError`, ...) and `some r` when it returns `r` normally;
* operations that construct and return a fresh object come back as
  `Option` of the object.

Definitions named `spec...` are NOT translated from the source: they
restate wording of the specification and are only used on the
specification side of refinement statements.
-/

/-- One row of an ffindex: `IndexRow` from `ffindex.py` (a NamedTuple
`(name, start, size)`, name a byte string, start/size Python ints,
here modelled as `Nat` — the format only ever holds non-negative
values). -/
structure IndexRow where
  name : List Nat
  start : Nat
  size : Nat
deriving DecidableEq, Repr

/-- ASCII whitespace per Python `bytes.strip` / `bytes.split`:
tab, LF, VT, FF, CR, space. -/
def isWS (b : Nat) : Bool :=
  b = 9 || b = 10 || b = 11 || b = 12 || b = 13 || b = 32

/-- Python `bytes.lstrip()` (no argument: ASCII whitespace). -/
def lstripBytes (l : List Nat) : List Nat := l.dropWhile isWS

/-- Python `bytes.rstrip()`. -/
def rstripBytes (l : List Nat) : List Nat := (l.reverse.dropWhile isWS).reverse

/-- Python `bytes.strip()`: strip whitespace from both ends. -/
def stripBytes (l : List Nat) : List Nat := lstripBytes (rstripBytes l)

/-- Worker for `splitWS`; `cur` is the token accumulated so far. -/
def splitWSGo (cur : List Nat) : List Nat → List (List Nat)
  | [] => if cur = [] then [] else [cur]
  | b :: rest =>
    if isWS b then
      if cur = [] then splitWSGo [] rest else cur :: splitWSGo [] rest
    else splitWSGo (cur ++ [b]) rest

/-- Python `bytes.split()` with no separator: split on runs of ASCII
whitespace, never producing empty tokens. -/
def splitWS (l : List Nat) : List (List Nat) := splitWSGo [] l

/-- Worker for `splitNL`. -/
def splitNLGo (cur : List Nat) : List Nat → List (List Nat)
  | [] => [cur]
  | b :: rest =>
    if b = 10 then cur :: splitNLGo [] rest else splitNLGo (cur ++ [b]) rest

/-- Python `bytes.split(b"\n")`: split on every single newline byte,
keeping empty pieces (so the result is always non-empty). -/
def splitNL (l : List Nat) : List (List Nat) := splitNLGo [] l

/-- Python `b"\n".join(pieces)`. -/
def joinNL (ls : List (List Nat)) : List Nat := List.intercalate [10] ls

/-- Worker for `fileLines`; `cur` is the partial line read so far. -/
def fileLinesGo (cur : List Nat) : List Nat → List (List Nat)
  | [] => if cur = [] then [] else [cur]
  | b :: rest =>
    if b = 10 then (cur ++ [b]) :: fileLinesGo [] rest
    else fileLinesGo (cur ++ [b]) rest

/-- Iterating a Python binary file handle (`for line in handle`):
yields maximal chunks ending in a newline byte (newline kept), plus a
final newline-less chunk when the file does not end with one. -/
def fileLines (contents : List Nat) : List (List Nat) :=
  fileLinesGo [] contents

/-- Worker for `parseDec`: accumulate decimal digits; any non-digit
byte is a `ValueError`. -/
def parseDecGo (acc : Nat) : List Nat → Option Nat
  | [] => some acc
  | b :: rest =>
    if 48 ≤ b ∧ b ≤ 57 then parseDecGo (acc * 10 + (b - 48)) rest else none

/-- Python `int(token)` for the tokens appearing in an ffindex file:
a non-empty run of decimal digit bytes.  (Python's `int` also accepts
signs, surrounding whitespace and underscores; serialization of the
non-negative offsets stored here never produces those, and the tokens
handed to `int` by the parser are whitespace-free by construction.) -/
def parseDec (l : List Nat) : Option Nat :=
  if l = [] then none else parseDecGo 0 l

/-- Little-endian decimal digits with explicit fuel (first argument),
structurally recursive so that the kernel can evaluate it; agrees
with `Nat.digits 10` whenever the fuel dominates the number. -/
def decDigits : Nat → Nat → List Nat
  | _, 0 => []
  | 0, _ + 1 => []
  | fuel + 1, n + 1 => ((n + 1) % 10) :: decDigits fuel ((n + 1) / 10)

/-- Python `str(n)` for a non-negative int: decimal digit bytes,
most significant first. -/
def renderDec (n : Nat) : List Nat :=
  if n = 0 then [48] else (decDigits n n).reverse.map (fun d => d + 48)

/-- Lexicographic byte-string comparison, the order Python uses when
sorting `bytes` values. -/
def bytesLe (a b : List Nat) : Bool :=
  match a, b with
  | [], _ => true
  | _ :: _, [] => false
  | x :: xs, y :: ys =>
    if x < y then true else if y < x then false else bytesLe xs ys

/-- A UTF-8 continuation byte (`0x80`–`0xBF`). -/
def utf8Cont (b : Nat) : Bool := 128 ≤ b && b ≤ 191

/-- Validity of a byte string under Python `bytes.decode("utf-8")`
(RFC 3629: no overlong forms, no surrogates, max U+10FFFF).
`FFIndex.write_to` decodes each name, so an invalid name makes
serialization raise; for a valid name the decode/encode pair is the
identity on the bytes, which is how serialization is modelled below. -/
def utf8Valid : List Nat → Bool
  | [] => true
  | b :: rest =>
    if b ≤ 127 then utf8Valid rest
    else if 194 ≤ b && b ≤ 223 then
      match rest with
      | c :: r => utf8Cont c && utf8Valid r
      | [] => false
    else if b = 224 then
      match rest with
      | c :: d :: r => (160 ≤ c && c ≤ 191) && utf8Cont d && utf8Valid r
      | _ => false
    else if 225 ≤ b && b ≤ 236 then
      match rest with
      | c :: d :: r => utf8Cont c && utf8Cont d && utf8Valid r
      | _ => false
    else if b = 237 then
      match rest with
      | c :: d :: r => (128 ≤ c && c ≤ 159) && utf8Cont d && utf8Valid r
      | _ => false
    else if 238 ≤ b && b ≤ 239 then
      match rest with
      | c :: d :: r => utf8Cont c && utf8Cont d && utf8Valid r
      | _ => false
    else if b = 240 then
      match rest with
      | c :: d :: e :: r =>
        (144 ≤ c && c ≤ 191) && utf8Cont d && utf8Cont e && utf8Valid r
      | _ => false
    else if 241 ≤ b && b ≤ 243 then
      match rest with
      | c :: d :: e :: r => utf8Cont c && utf8Cont d && utf8Cont e && utf8Valid r
      | _ => false
    else if b = 244 then
      match rest with
      | c :: d :: e :: r =>
        (128 ≤ c && c ≤ 143) && utf8Cont d && utf8Cont e && utf8Valid r
      | _ => false
    else false

/-- `IndexRow.parse_ffindex_line`: `name, start, size =
line.strip().split()` (exactly three whitespace-separated fields,
else `ValueError`), numeric fields through `int`. -/
def parse_ffindex_line (line : List Nat) : Option IndexRow :=
  match splitWS (stripBytes line) with
  | [name, start, size] =>
    match parseDec start, parseDec size with
    | some s, some z => some ⟨name, s, z⟩
    | _, _ => none
  | _ => none

/-- The `FFIndex` object state: the `index` list of rows and the
`lookup` dict, the latter modelled as its association list in
insertion order. -/
structure FFIndex where
  index : List IndexRow
  lookup : List (List Nat × IndexRow)
deriving DecidableEq, Repr

/-- Stable insertion into a sorted list: the new element goes in
front of the first element that is not strictly below it, so an
element inserted later never jumps ahead of an equal one. -/
def insertSorted (le : α → α → Bool) (x : α) : List α → List α
  | [] => [x]
  | y :: ys => if le y x && !(le x y) then y :: insertSorted le x ys else x :: y :: ys

/-- A stable sort.  Python's `sorted` is stable, and for a total
preorder any two stable sorts of a list coincide element for
element, so this is exactly the list `sorted(...)` returns. -/
def insertionSort (le : α → α → Bool) : List α → List α
  | [] => []
  | x :: xs => insertSorted le x (insertionSort le xs)

/-- `sorted(rows, key=lambda x: x.start)`. -/
def sortByStart (rows : List IndexRow) : List IndexRow :=
  insertionSort (fun a b => decide (a.start ≤ b.start)) rows

/-- `sorted(rows, key=lambda x: x.name)` used by `write_to`. -/
def sortByName (rows : List IndexRow) : List IndexRow :=
  insertionSort (fun a b => bytesLe a.name b.name) rows

/-- `sorted(rows, key=lambda i: i.size, reverse=True)` used by
`reorder_from` and `partition`. -/
def sortBySizeDesc (rows : List IndexRow) : List IndexRow :=
  insertionSort (fun a b => decide (b.size ≤ a.size)) rows

/-- The lookup-building loop of `FFIndex.__init__`: for each row (in
start-sorted order) assert its name unseen, then add it to the dict. -/
def buildLookup (acc : List (List Nat × IndexRow)) :
    List IndexRow → Option (List (List Nat × IndexRow))
  | [] => some acc
  | r :: rs =>
    if acc.any (fun kv => decide (kv.1 = r.name)) then none
    else buildLookup (acc ++ [(r.name, r)]) rs

/-- `FFIndex.__init__(index)`: sort the rows by `start`, then build
the name lookup, asserting that no name repeats. -/
def FFIndex.init (rows : List IndexRow) : Option FFIndex :=
  (buildLookup [] (sortByStart rows)).map (fun lk => ⟨sortByStart rows, lk⟩)

/-- `FFIndex.append(value)`.  The duplicate-name assert fires before
any mutation, so the raising branch keeps the state intact.  `start`
is recomputed from the current last row (`value.start` is ignored);
the method body ends in a bare `return`, i.e. it returns Python
`None`, modelled as the inner `none` of the `some none` payload. -/
def FFIndex.append (idx : FFIndex) (value : IndexRow) :
    FFIndex × Option (Option IndexRow) :=
  if idx.lookup.any (fun kv => decide (kv.1 = value.name)) then (idx, none)
  else
    let start :=
      match idx.index.getLast? with
      | some last_row => last_row.start + last_row.size
      | none => 0
    let new_record : IndexRow := ⟨value.name, start, value.size⟩
    (⟨idx.index ++ [new_record], idx.lookup ++ [(value.name, new_record)]⟩,
      some none)

/-- The loop of `FFIndex.extend`: append each row, keeping whatever
state was reached when an append raises. -/
def FFIndex.extendGo (idx : FFIndex) : List IndexRow → FFIndex × Option Unit
  | [] => (idx, some ())
  | v :: vs =>
    match idx.append v with
    | (idx2, some _) => idx2.extendGo vs
    | (idx2, none) => (idx2, none)

/-- `FFIndex.extend(values)`: repeated append, returning
`len(values)`. -/
def FFIndex.extend (idx : FFIndex) (values : List IndexRow) :
    FFIndex × Option Nat :=
  match idx.extendGo values with
  | (idx2, some _) => (idx2, some values.length)
  | (idx2, none) => (idx2, none)

/-- One serialized line of `FFIndex.write_to`:
`"{}\t{}\t{}\n".format(name.decode("utf-8"), start, size).encode()`.
For a UTF-8-valid name the decode/encode pair reproduces the name
bytes exactly. -/
def renderRow (r : IndexRow) : List Nat :=
  r.name ++ 9 :: renderDec r.start ++ 9 :: renderDec r.size ++ [10]

/-- The writing loop of `FFIndex.write_to` over the name-sorted rows;
`none` when some name fails to decode as UTF-8 (the Python loop
raises there, having already emitted the earlier rows — only the
successful, total output is ever consumed by the claims). -/
def serializeRows : List IndexRow → Option (List Nat)
  | [] => some []
  | r :: rs =>
    if utf8Valid r.name then (serializeRows rs).map (fun bs => renderRow r ++ bs)
    else none

/-- `FFIndex.write_to(handle)`: emit the rows sorted by name, each as
a tab-separated line.  Result is the byte content written. -/
def FFIndex.write_to (idx : FFIndex) : Option (List Nat) :=
  serializeRows (sortByName idx.index)

/-- The `for line in handle` loop of `FFIndex.from_file`: parse every
line in order, raising on the first malformed one. -/
def parseAllLines : List (List Nat) → Option (List IndexRow)
  | [] => some []
  | l :: ls =>
    match parse_ffindex_line l, parseAllLines ls with
    | some r, some rs => some (r :: rs)
    | _, _ => none

/-- `FFIndex.from_file(handle)`: parse every line of the file, then
run the constructor on the parsed rows. -/
def FFIndex.from_file (contents : List Nat) : Option FFIndex :=
  (parseAllLines (fileLines contents)).bind FFIndex.init

/-- `FFIndex.bump_starts(by)`: identity copy for `by == 0`, otherwise
a fresh `FFIndex` built by the constructor from the shifted rows.
Python ints are unbounded so `start + by` can be any integer; the
embedding clamps through `Int.toNat`, exact at every call site of the
engine (`quick_partition` shifts rows down by the partition base,
which never exceeds a row start there). -/
def FFIndex.bump_starts (idx : FFIndex) (off : Int) : Option FFIndex :=
  if off = 0 then some idx
  else FFIndex.init
    (idx.index.map (fun r => ⟨r.name, ((r.start : Int) + off).toNat, r.size⟩))

/-- `FFData.__getitem__` for one row, i.e. `seek(start); read(size)`:
reading past end-of-file silently returns the bytes that exist. -/
def readRange (data : List Nat) (start size : Nat) : List Nat :=
  (data.drop start).take size

/-- `FFData.append(b)`: `assert b[-1:] == b"\0"` (so the empty string
is rejected too), then write at end-of-file. -/
def FFData.appendData (data b : List Nat) : Option (List Nat) :=
  if b.getLast? = some 0 then some (data ++ b) else none

/-- `FFData.write_sized(start, size, handle)`: seek and copy a single
byte range. -/
def FFData.write_sized (data : List Nat) (start size : Nat) : List Nat :=
  readRange data start size

/-- The `FFDB` object: an `FFData` (its backing bytes) plus an
`FFIndex`. -/
structure FFDB where
  data : List Nat
  index : FFIndex
deriving DecidableEq, Repr

/-- `FFDB.new()` with a fresh in-memory handle: empty data, empty
index. -/
def FFDB.new : FFDB := ⟨[], ⟨[], []⟩⟩

/-- `FFDB.append_from(data, key)` for an `IndexRow` key: read the
source range, append the row to our index (recomputing its offset),
then append the bytes to our data file.  The index mutation happens
BEFORE the data write, so when `FFData.append`'s sentinel assert
raises, the already-updated index survives while the data file is
untouched. -/
def FFDB.append_from (db source : FFDB) (row : IndexRow) : FFDB × Option Nat :=
  let to_write := readRange source.data row.start row.size
  match db.index.append row with
  | (idx2, none) => (⟨db.data, idx2⟩, none)
  | (idx2, some _) =>
    match FFData.appendData db.data to_write with
    | none => (⟨db.data, idx2⟩, none)
    | some d2 => (⟨d2, idx2⟩, some to_write.length)

/-- The loop of `FFDB.extend_from` over a list of resolved rows,
summing the written lengths. -/
def FFDB.extend_from (db source : FFDB) : List IndexRow → FFDB × Option Nat
  | [] => (db, some 0)
  | r :: rs =>
    match db.append_from source r with
    | (db2, none) => (db2, none)
    | (db2, some len) =>
      match db2.extend_from source rs with
      | (db3, none) => (db3, none)
      | (db3, some acc) => (db3, some (len + acc))

/-- The `indices` local of `FFDB.reorder_from`: the explicit order
when given, else the rows sorted by descending size. -/
def reorderIndices (other : FFDB) (order : Option (List IndexRow)) :
    List IndexRow :=
  match order with
  | none => sortBySizeDesc other.index.index
  | some o => o

/-- `FFDB.reorder_from(other, order=...)`: build a fresh database by
copying records of `other` in the given order, defaulting to
descending size.  `none` when some copy raises. -/
def FFDB.reorder_from (other : FFDB) (order : Option (List IndexRow)) :
    Option FFDB :=
  match FFDB.new.extend_from other (reorderIndices other order) with
  | (db2, some _) => some db2
  | (_, none) => none

/-- `FFDB.append(data, key)` (the spec's `append_raw`): add a
sentinel byte when the blob does not already end with one, write the
bytes (data first!), then append an index row sized to the written
blob; returns the written length. -/
def FFDB.append (db : FFDB) (data : List Nat) (key : List Nat) :
    FFDB × Option Nat :=
  let data2 := if data.getLast? = some 0 then data else data ++ [0]
  match FFData.appendData db.data data2 with
  | none => (db, none)
  | some d2 =>
    match db.index.append ⟨key, 0, data2.length⟩ with
    | (idx2, none) => (⟨d2, idx2⟩, none)
    | (idx2, some _) => (⟨d2, idx2⟩, some data2.length)

/-- The loop of `FFDB.concat(dbs)`: for each input database extend
our index with all of its rows (offsets recomputed by `append`), then
copy its whole data file to the end of ours. -/
def FFDB.concatGo (db : FFDB) : List FFDB → FFDB × Option Unit
  | [] => (db, some ())
  | d :: ds =>
    match db.index.extend d.index.index with
    | (idx2, none) => (⟨db.data, idx2⟩, none)
    | (idx2, some _) => FFDB.concatGo ⟨db.data ++ d.data, idx2⟩ ds

/-- `FFDB.concat(dbs)`. -/
def FFDB.concat (db : FFDB) (dbs : List FFDB) : FFDB × Option Unit :=
  db.concatGo dbs

/-- The generator `FFDB.documents(trim)`: per index row (in index
order) read the range, drop the final byte, and under `trim=t` keep
only the lines after the first `t`, skipping documents that become
empty. -/
def FFDB.documentsGo (data : List Nat) (trim : Option Nat) :
    List IndexRow → List (List Nat × List Nat)
  | [] => []
  | r :: rs =>
    let document := readRange data r.start r.size
    let trimmed_document := document.dropLast
    match trim with
    | some t =>
      let sdocument := (splitNL trimmed_document).drop t
      if sdocument.length = 0 then FFDB.documentsGo data trim rs
      else (r.name, joinNL sdocument) :: FFDB.documentsGo data trim rs
    | none => (r.name, trimmed_document) :: FFDB.documentsGo data trim rs

/-- `FFDB.documents(trim)` materialized as the list of yielded
`(name, document)` pairs. -/
def FFDB.documents (db : FFDB) (trim : Option Nat) :
    List (List Nat × List Nat) :=
  FFDB.documentsGo db.data trim db.index.index

/-- Worker for `sliceStride` with explicit fuel (first value
argument), structurally recursive so that the kernel can evaluate it;
the entry point passes the list length, which dominates the recursion
depth, and the result does not depend on the fuel beyond that. -/
def sliceStrideGo (k : Nat) : Nat → List α → List α
  | _, [] => []
  | 0, _ :: _ => []
  | fuel + 1, x :: xs => x :: sliceStrideGo k fuel (xs.drop (k - 1))

/-- The Python slice `l[i::k]` for `k ≥ 1`, after the initial `drop`:
take an element, skip `k - 1`, repeat. -/
def sliceStride (k : Nat) (l : List α) : List α :=
  sliceStrideGo k l.length l

/-- Sequence a list of options (the partition loop stops at the first
chunk whose materialization raises). -/
def optionList : List (Option α) → Option (List α)
  | [] => some []
  | none :: _ => none
  | some x :: xs => (optionList xs).map (fun ys => x :: ys)

/-- The chunk-writing loop of `FFDB.partition`: for each
`i in range(nchunks)` materialize the stride slice
`indices[i::nchunks]` as a fresh database via `reorder_from` and then
write its index out with `chunkdb.index.write_to(index_handle)` —
which raises `UnicodeDecodeError` when some chunk row name is not
valid UTF-8 (the loop raises at the first failing chunk). -/
def FFDB.partitionChunks (db : FFDB) (indices : List IndexRow)
    (nchunks : Nat) : Option (List FFDB) :=
  optionList ((List.range nchunks).map
    (fun i => (db.reorder_from (some (sliceStride nchunks (indices.drop i)))).bind
      (fun chunkdb => chunkdb.index.write_to.map (fun _ => chunkdb))))

/-- `FFDB.partition(name, order, template, n)`: order the rows
(descending size by default; an explicit order must have the index's
length), split into `nchunks = ceil(m / n)` stride slices
`indices[i::nchunks]`, and materialize each chunk.  File naming/IO is
elided; the result is the list of chunk databases and the returned
`nchunks`.  `n = 0` is Python's `ZeroDivisionError` in `ceil`. -/
def FFDB.partition (db : FFDB) (order : Option (List IndexRow)) (n : Nat) :
    Option (List FFDB × Nat) :=
  if n = 0 then none
  else
    match order with
    | none =>
      (db.partitionChunks (sortBySizeDesc db.index.index)
          ((db.index.index.length + n - 1) / n)).map
        (fun chunks => (chunks, (db.index.index.length + n - 1) / n))
    | some o =>
      if o.length = db.index.index.length then
        (db.partitionChunks o ((db.index.index.length + n - 1) / n)).map
          (fun chunks => (chunks, (db.index.index.length + n - 1) / n))
      else none

/-- `FFDB._write_quick_partition(start, end, ...)`: build the chunk's
index through the constructor, shift it down to base 0, serialize it
with `partition_index.write_to(handle)` — which raises
`UnicodeDecodeError` when some row name is not valid UTF-8 — and then
copy the single byte range `[start, end)`.  Result: the partition's
index and its data bytes. -/
def FFDB.write_quick_partition (db : FFDB) (start stop : Nat)
    (indices : List IndexRow) : Option (FFIndex × List Nat) :=
  match FFIndex.init indices with
  | none => none
  | some fi =>
    match fi.bump_starts (-(start : Int)) with
    | none => none
    | some pidx =>
      pidx.write_to.map
        (fun _ => (pidx, FFData.write_sized db.data start (stop - start)))

/-- The loop of `FFDB.quick_partition(n)`: 1-based enumeration; when
the counter hits a multiple of `n` the accumulated rows (EXCLUDING
the current one) are flushed as a partition ending at the current
row's start, and the current row starts the next chunk; after the
loop the remaining rows are flushed only when more than one is left.
A flush whose `_write_quick_partition` raises (a non-UTF-8 row name
in its `write_to` call) aborts the whole loop.  Returns the written
partitions and the final `partition` counter. -/
def FFDB.quickGo (db : FFDB) (n : Nat) :
    List IndexRow → Nat → Nat → List IndexRow → Nat →
    Option (List (FFIndex × List Nat) × Nat)
  | [], _, start_pos, pindices, part =>
    if 1 < pindices.length then
      match pindices.getLast? with
      | some last =>
        match db.write_quick_partition start_pos (last.start + last.size)
            pindices with
        | none => none
        | some w => some ([w], part)
      | none => some ([], part)
    else some ([], part)
  | p :: rest, i, start_pos, pindices, part =>
    if i % n = 0 then
      match db.write_quick_partition start_pos p.start pindices with
      | none => none
      | some w =>
        match db.quickGo n rest (i + 1) p.start [p] (part + 1) with
        | none => none
        | some res => some (w :: res.1, res.2)
    else db.quickGo n rest (i + 1) start_pos (pindices ++ [p]) part

/-- `FFDB.quick_partition(n)`.  With `n = 0` Python raises
`ZeroDivisionError` at the first loop iteration (`i % 0`), so a
non-empty database yields nothing; an empty one never enters the
loop. -/
def FFDB.quick_partition (db : FFDB) (n : Nat) :
    Option (List (FFIndex × List Nat) × Nat) :=
  if n = 0 then
    if db.index.index = [] then some ([], 1) else none
  else db.quickGo n db.index.index 1 0 [] 1

/-- The order-length validation of `scripts/split.py` (raising
`FFOrderError` when an explicit order file does not have exactly as
many entries as the index). -/
def splitOrderCheck (db : FFDB) (order : List IndexRow) :
    Option (List IndexRow) :=
  if order.length = db.index.index.length then some order else none

/-! ## Specification-side definitions -/

/-- Spec side: rows are contiguous starting at offset `s` — each row
begins where the previous one ended. -/
def specContiguousFrom : List IndexRow → Nat → Prop
  | [], _ => True
  | r :: rs, s => r.start = s ∧ specContiguousFrom rs (r.start + r.size)

instance instDecidableSpecContiguousFrom :
    ∀ (l : List IndexRow) (s : Nat), Decidable (specContiguousFrom l s)
  | [], _ => Decidable.isTrue trivial
  | r :: rs, s =>
    have : Decidable (specContiguousFrom rs (r.start + r.size)) :=
      instDecidableSpecContiguousFrom rs _
    decidable_of_iff (r.start = s ∧ specContiguousFrom rs (r.start + r.size))
      (by simp [specContiguousFrom])

/-- Spec side: total byte volume of a row list. -/
def specSumSizes (rows : List IndexRow) : Nat := (rows.map IndexRow.size).sum

/-- Spec side: the start offset `FFIndex.append` hands the next row —
`0` on an empty index, else `last.start + last.size`. -/
def specNextStart (rows : List IndexRow) : Nat :=
  match rows.getLast? with
  | some last_row => last_row.start + last_row.size
  | none => 0

/-- Spec side: the same rows (names and sizes) relaid out contiguously
from `base` — the index an offset-recomputing copy produces. -/
def specRelocate : List IndexRow → Nat → List IndexRow
  | [], _ => []
  | r :: rs, base => ⟨r.name, base, r.size⟩ :: specRelocate rs (base + r.size)

/-- Spec side: `ceil(m / n)` on naturals. -/
def specCeilDiv (m n : Nat) : Nat := (m + n - 1) / n

/-- Spec side: chop a list into successive groups of `n`. -/
def specChunksN (n : Nat) : List α → List (List α)
  | [] => []
  | x :: xs =>
    if n = 0 then [x :: xs]
    else (x :: xs).take n :: specChunksN n ((x :: xs).drop n)
termination_by l => l.length
decreasing_by simp only [List.length_drop, List.length_cons]; omega

/-- Spec side: keep every group but the last, and the last only when
it has more than one row — `quick_partition`'s flush rule. -/
def specKeepChunks : List (List IndexRow) → List (List IndexRow)
  | [] => []
  | [c] => if 1 < c.length then [c] else []
  | c :: cs => c :: specKeepChunks cs

/-- Spec side: the groups `quick_partition` actually writes — a first
group of `n - 1` rows, then groups of `n`, the final group kept only
when it has more than one row. -/
def specQuickChunks (n : Nat) (l : List IndexRow) : List (List IndexRow) :=
  specKeepChunks (l.take (n - 1) :: specChunksN n (l.drop (n - 1)))

/-- Spec side: a name is storable in the text index format — non-empty,
no ASCII whitespace bytes (the parser splits on any whitespace), and
valid UTF-8 (the serializer decodes it). -/
def specGoodName (n : List Nat) : Prop :=
  n ≠ [] ∧ (∀ b ∈ n, isWS b = false) ∧ utf8Valid n = true

instance (n : List Nat) : Decidable (specGoodName n) := by
  unfold specGoodName; infer_instance

/-- Well-formedness of an `FFIndex` object, maintained by the class:
row names are unique and the lookup dict pairs each name with its row,
in row order. -/
def FFIndex.WF (idx : FFIndex) : Prop :=
  (idx.index.map IndexRow.name).Nodup ∧
  idx.lookup = idx.index.map (fun r => (r.name, r))

instance (idx : FFIndex) : Decidable idx.WF := by
  unfold FFIndex.WF; infer_instance

/-- A database whose rows can all be copied record-by-record: every
row's range is fully backed by data bytes and ends with the sentinel
(spec §3: ranges reference bytes actually present, sizes include the
trailing sentinel). -/
def FFDB.ReadOK (db : FFDB) : Prop :=
  ∀ r ∈ db.index.index,
    (readRange db.data r.start r.size).length = r.size ∧
    (readRange db.data r.start r.size).getLast? = some 0

instance (db : FFDB) : Decidable db.ReadOK := by
  unfold FFDB.ReadOK; infer_instance

/-- The claim scenario of C1: an index built purely by `append`,
starting from empty. -/
def buildGo (idx : FFIndex) : List IndexRow → Option FFIndex
  | [] => some idx
  | v :: vs =>
    match idx.append v with
    | (idx2, some _) => buildGo idx2 vs
    | (_, none) => none

/-- Build an `FFIndex` from scratch by appending each request in
turn; `none` when an append raises. -/
def buildByAppend (reqs : List IndexRow) : Option FFIndex :=
  buildGo ⟨[], []⟩ reqs

example : buildByAppend [⟨[97], 50, 4⟩, ⟨[98], 7, 6⟩] =
    some ⟨[⟨[97], 0, 4⟩, ⟨[98], 4, 6⟩],
          [([97], ⟨[97], 0, 4⟩), ([98], ⟨[98], 4, 6⟩)]⟩ := by decide

example : parse_ffindex_line [111, 110, 101, 9, 48, 9, 53, 48] =
    some ⟨[111, 110, 101], 0, 50⟩ := by decide

example : renderDec 120 = [49, 50, 48] := by decide

example : splitWS [32, 97, 9, 9, 98, 99, 32] = [[97], [98, 99]] := by decide

example : splitNL [97, 10, 10, 98] = [[97], [], [98]] := by decide

example : splitNL [] = [[]] := by decide

example : fileLines [97, 10, 98] = [[97, 10], [98]] := by decide

/-! ## Generic facts about `FFIndex.append` -/

/-- With `s = 0` this is exactly the offset computation of
`FFIndex.append`; the extra base `s` is what makes the induction go
through. -/
def nextStartFrom (s : Nat) (l : List IndexRow) : Nat :=
  match l.getLast? with
  | some r => r.start + r.size
  | none => s

theorem specNextStart_eq_from (l : List IndexRow) :
    specNextStart l = nextStartFrom 0 l := rfl

theorem insertSorted_perm (le : α → α → Bool) (x : α) :
    ∀ l : List α, (insertSorted le x l).Perm (x :: l)
  | [] => List.Perm.refl _
  | y :: ys => by
    unfold insertSorted
    by_cases h : (le y x && !(le x y)) = true
    · rw [if_pos h]
      exact (List.Perm.cons y (insertSorted_perm le x ys)).trans
        (List.Perm.swap x y ys)
    · rw [if_neg h]

theorem insertionSort_perm (le : α → α → Bool) :
    ∀ l : List α, (insertionSort le l).Perm l
  | [] => List.Perm.refl _
  | x :: xs =>
    (insertSorted_perm le x (insertionSort le xs)).trans
      (List.Perm.cons x (insertionSort_perm le xs))

theorem insertSorted_pairwise (le : α → α → Bool)
    (htrans : ∀ a b c, le a b = true → le b c = true → le a c = true)
    (htot : ∀ a b, (le a b || le b a) = true) (x : α) :
    ∀ l : List α, l.Pairwise (fun a b => le a b = true) →
      (insertSorted le x l).Pairwise (fun a b => le a b = true)
  | [], _ => by simp [insertSorted]
  | y :: ys, h => by
    unfold insertSorted
    obtain ⟨hy, hys⟩ := List.pairwise_cons.mp h
    by_cases hc : (le y x && !(le x y)) = true
    · rw [if_pos hc]
      rw [List.pairwise_cons]
      refine ⟨?_, insertSorted_pairwise le htrans htot x ys hys⟩
      intro b hb
      rcases List.mem_cons.mp ((insertSorted_perm le x ys).subset hb) with
        rfl | hbys
      · obtain ⟨h1', h2'⟩ : le y b = true ∧ (!le b y) = true := by simpa using hc
        exact h1'
      · exact hy b hbys
    · rw [if_neg hc]
      rw [List.pairwise_cons]
      have hxy : le x y = true := by
        by_cases h2 : le x y = true
        · exact h2
        · have h3 := htot x y
          rw [Bool.or_eq_true] at h3
          rcases h3 with h3 | h3
          · exact h3
          · rw [Bool.not_eq_true] at h2
            exact absurd (by rw [h3, h2]; rfl) hc
      refine ⟨?_, h⟩
      intro b hb
      rcases List.mem_cons.mp hb with rfl | hbys
      · exact hxy
      · exact htrans x y b hxy (hy b hbys)

theorem insertionSort_pairwise (le : α → α → Bool)
    (htrans : ∀ a b c, le a b = true → le b c = true → le a c = true)
    (htot : ∀ a b, (le a b || le b a) = true) :
    ∀ l : List α, (insertionSort le l).Pairwise (fun a b => le a b = true)
  | [] => List.Pairwise.nil
  | x :: xs =>
    insertSorted_pairwise le htrans htot x (insertionSort le xs)
      (insertionSort_pairwise le htrans htot xs)

theorem insertionSort_of_sorted (le : α → α → Bool) :
    ∀ l : List α, l.Pairwise (fun a b => le a b = true) →
      insertionSort le l = l
  | [], _ => rfl
  | x :: xs, h => by
    obtain ⟨hx, hxs⟩ := List.pairwise_cons.mp h
    unfold insertionSort
    rw [insertionSort_of_sorted le xs hxs]
    cases xs with
    | nil => rfl
    | cons y ys =>
      have hxy : le x y = true := hx y (List.mem_cons_self y ys)
      unfold insertSorted
      rw [if_neg (by rw [hxy]; simp)]

theorem lookup_keys_eq {idx : FFIndex} (h : idx.WF) :
    idx.lookup.map Prod.fst = idx.index.map IndexRow.name := by
  rw [h.2, List.map_map]
  rfl

theorem append_any_iff {idx : FFIndex} (v : IndexRow) (h : idx.WF) :
    (idx.lookup.any (fun kv => decide (kv.1 = v.name)) = true) ↔
      v.name ∈ idx.index.map IndexRow.name := by
  rw [h.2]
  simp only [List.any_eq_true, List.mem_map, decide_eq_true_eq]
  constructor
  · rintro ⟨kv, ⟨r, hr, rfl⟩, hkv⟩
    exact ⟨r, hr, hkv⟩
  · rintro ⟨r, hr, hn⟩
    exact ⟨(r.name, r), ⟨r, hr, rfl⟩, hn⟩

theorem FFIndex.append_mem {idx : FFIndex} {v : IndexRow} (hwf : idx.WF)
    (h : v.name ∈ idx.index.map IndexRow.name) :
    idx.append v = (idx, none) := by
  unfold FFIndex.append
  rw [if_pos ((append_any_iff v hwf).mpr h)]

theorem FFIndex.append_fresh {idx : FFIndex} {v : IndexRow} (hwf : idx.WF)
    (h : v.name ∉ idx.index.map IndexRow.name) :
    idx.append v =
      (⟨idx.index ++ [⟨v.name, specNextStart idx.index, v.size⟩],
        idx.lookup ++ [(v.name, ⟨v.name, specNextStart idx.index, v.size⟩)]⟩,
        some none) := by
  have hany : idx.lookup.any (fun kv => decide (kv.1 = v.name)) = false := by
    rw [← Bool.not_eq_true]
    intro hc
    exact h ((append_any_iff v hwf).mp hc)
  unfold FFIndex.append
  simp only [hany, Bool.false_eq_true, if_false]
  rfl

theorem FFIndex.append_wf {idx : FFIndex} {v : IndexRow} (hwf : idx.WF)
    (h : v.name ∉ idx.index.map IndexRow.name) :
    ((idx.append v).1).WF := by
  rw [FFIndex.append_fresh hwf h]
  refine ⟨?_, ?_⟩
  · rw [List.map_append, List.nodup_append]
    refine ⟨hwf.1, by simp, ?_⟩
    intro a ha hb
    simp only [List.map_cons, List.map_nil, List.mem_singleton] at hb
    subst hb
    exact h ha
  · simp [hwf.2]

theorem nextStartFrom_cons (s t : Nat) (x : IndexRow) (xs : List IndexRow) :
    nextStartFrom s (x :: xs) = nextStartFrom t (x :: xs) := by
  unfold nextStartFrom
  cases h : (x :: xs).getLast? with
  | some r => rfl
  | none => simp at h

theorem specContiguousFrom_append_from (v : IndexRow) (z : Nat) :
    ∀ (l : List IndexRow) (s : Nat), specContiguousFrom l s →
      specContiguousFrom (l ++ [⟨v.name, nextStartFrom s l, z⟩]) s
  | [], s, _ => by
    simp [specContiguousFrom, nextStartFrom]
  | a :: l, s, h => by
    obtain ⟨h1, h2⟩ := h
    refine ⟨h1, ?_⟩
    have ih := specContiguousFrom_append_from v z l (a.start + a.size) h2
    have heq : nextStartFrom s (a :: l) = nextStartFrom (a.start + a.size) l := by
      cases l with
      | nil => simp [nextStartFrom]
      | cons b l2 =>
        have h3 : nextStartFrom s (a :: b :: l2) = nextStartFrom s (b :: l2) := by
          unfold nextStartFrom
          rw [List.getLast?_cons_cons]
        rw [h3]
        exact nextStartFrom_cons s _ b l2
    rw [heq]
    exact ih

theorem specContiguousFrom_append0 {l : List IndexRow} (v : IndexRow) (z : Nat)
    (h : specContiguousFrom l 0) :
    specContiguousFrom (l ++ [⟨v.name, specNextStart l, z⟩]) 0 := by
  rw [specNextStart_eq_from]
  exact specContiguousFrom_append_from v z l 0 h

theorem specContiguousFrom_head {l : List IndexRow} {s : Nat}
    (h : specContiguousFrom l s) (h0 : 0 < l.length) :
    l[0].start = s := by
  cases l with
  | nil => simp at h0
  | cons a l => exact h.1

theorem specContiguousFrom_step :
    ∀ {l : List IndexRow} {s : Nat}, specContiguousFrom l s →
      ∀ i (hi : i + 1 < l.length),
        l[i + 1].start = l[i].start + l[i].size := by
  intro l
  induction l with
  | nil => intro s _ i hi; simp at hi
  | cons a l ih =>
    intro s h i hi
    obtain ⟨h1, h2⟩ := h
    cases i with
    | zero =>
      simp only [List.getElem_cons_succ, List.getElem_cons_zero]
      have := specContiguousFrom_head h2 (by simpa using hi)
      simpa using this
    | succ j =>
      simp only [List.getElem_cons_succ]
      exact ih h2 j (by simpa using hi)

theorem buildGo_invariant :
    ∀ (reqs : List IndexRow) (idx idx2 : FFIndex), idx.WF →
      specContiguousFrom idx.index 0 → buildGo idx reqs = some idx2 →
      idx2.WF ∧ specContiguousFrom idx2.index 0
  | [], idx, idx2, hwf, hc, h => by
    simp only [buildGo] at h
    cases h
    exact ⟨hwf, hc⟩
  | v :: vs, idx, idx2, hwf, hc, h => by
    simp only [buildGo] at h
    by_cases hmem : v.name ∈ idx.index.map IndexRow.name
    · rw [FFIndex.append_mem hwf hmem] at h
      simp at h
    · rw [FFIndex.append_fresh hwf hmem] at h
      simp only at h
      refine buildGo_invariant vs _ idx2 ?_ ?_ h
      · have := FFIndex.append_wf hwf hmem
        rwa [FFIndex.append_fresh hwf hmem] at this
      · exact specContiguousFrom_append0 v v.size hc

/-! ## Claims C1 and C6 -/

/-- C1 (amended): for an Index built purely by `append` from empty,
`row[0].start = 0` and `row[i].start = row[i-1].start + row[i-1].size`
for `i > 0`; `append` rejects duplicate names leaving the state as it
was, and a fresh append inserts the newly assigned row (offset
recomputed from the tail) at the end of the row list — but the method
itself returns Python `None`, not the new row. -/
theorem C1_append_contiguity (reqs : List IndexRow) (idx : FFIndex)
    (h : buildByAppend reqs = some idx) :
    (∀ h0 : 0 < idx.index.length, idx.index[0].start = 0) ∧
    (∀ i (hi : i + 1 < idx.index.length),
      idx.index[i + 1].start = idx.index[i].start + idx.index[i].size) ∧
    (∀ v : IndexRow, v.name ∈ idx.index.map IndexRow.name →
      idx.append v = (idx, none)) ∧
    (∀ v : IndexRow, v.name ∉ idx.index.map IndexRow.name →
      (idx.append v).1.index =
        idx.index ++ [⟨v.name, specNextStart idx.index, v.size⟩] ∧
      (idx.append v).2 = some none) := by
  have hwfempty : (FFIndex.mk [] []).WF := by
    constructor <;> simp
  have hinv := buildGo_invariant reqs ⟨[], []⟩ idx hwfempty trivial h
  obtain ⟨hwf, hc⟩ := hinv
  refine ⟨fun h0 => specContiguousFrom_head hc h0,
    fun i hi => specContiguousFrom_step hc i hi,
    fun v hv => FFIndex.append_mem hwf hv,
    fun v hv => ?_⟩
  rw [FFIndex.append_fresh hwf hv]
  exact ⟨rfl, rfl⟩

/-- C1 counterexample: the claim says `append` "returns the newly
assigned row"; the method body ends in a bare `return`, so the value
returned for the first append of a row named `x` with size 6 is
`None` (`some none` here), not the newly assigned row `(x, 0, 6)`. -/
theorem C1_counterexample :
    (FFIndex.append ⟨[], []⟩ ⟨[120], 0, 6⟩).2 ≠
      some (some ⟨[120], 0, 6⟩) := by decide

/-- C1 witness: two appends (requested start offsets deliberately
bogus) produce starts `0` and `0 + 4`. -/
theorem C1_witness :
    (∀ h0 : 0 <
        (FFIndex.mk [⟨[97], 0, 4⟩, ⟨[98], 4, 6⟩]
          [([97], ⟨[97], 0, 4⟩), ([98], ⟨[98], 4, 6⟩)]).index.length,
      (FFIndex.mk [⟨[97], 0, 4⟩, ⟨[98], 4, 6⟩]
          [([97], ⟨[97], 0, 4⟩), ([98], ⟨[98], 4, 6⟩)]).index[0].start = 0) ∧
    (∀ i (hi : i + 1 <
        (FFIndex.mk [⟨[97], 0, 4⟩, ⟨[98], 4, 6⟩]
          [([97], ⟨[97], 0, 4⟩), ([98], ⟨[98], 4, 6⟩)]).index.length),
      (FFIndex.mk [⟨[97], 0, 4⟩, ⟨[98], 4, 6⟩]
          [([97], ⟨[97], 0, 4⟩), ([98], ⟨[98], 4, 6⟩)]).index[i + 1].start =
        (FFIndex.mk [⟨[97], 0, 4⟩, ⟨[98], 4, 6⟩]
          [([97], ⟨[97], 0, 4⟩), ([98], ⟨[98], 4, 6⟩)]).index[i].start +
        (FFIndex.mk [⟨[97], 0, 4⟩, ⟨[98], 4, 6⟩]
          [([97], ⟨[97], 0, 4⟩), ([98], ⟨[98], 4, 6⟩)]).index[i].size) ∧
    (∀ v : IndexRow, v.name ∈
        (FFIndex.mk [⟨[97], 0, 4⟩, ⟨[98], 4, 6⟩]
          [([97], ⟨[97], 0, 4⟩), ([98], ⟨[98], 4, 6⟩)]).index.map IndexRow.name →
      (FFIndex.mk [⟨[97], 0, 4⟩, ⟨[98], 4, 6⟩]
          [([97], ⟨[97], 0, 4⟩), ([98], ⟨[98], 4, 6⟩)]).append v =
        (FFIndex.mk [⟨[97], 0, 4⟩, ⟨[98], 4, 6⟩]
          [([97], ⟨[97], 0, 4⟩), ([98], ⟨[98], 4, 6⟩)], none)) ∧
    (∀ v : IndexRow, v.name ∉
        (FFIndex.mk [⟨[97], 0, 4⟩, ⟨[98], 4, 6⟩]
          [([97], ⟨[97], 0, 4⟩), ([98], ⟨[98], 4, 6⟩)]).index.map IndexRow.name →
      ((FFIndex.mk [⟨[97], 0, 4⟩, ⟨[98], 4, 6⟩]
          [([97], ⟨[97], 0, 4⟩), ([98], ⟨[98], 4, 6⟩)]).append v).1.index =
        (FFIndex.mk [⟨[97], 0, 4⟩, ⟨[98], 4, 6⟩]
          [([97], ⟨[97], 0, 4⟩), ([98], ⟨[98], 4, 6⟩)]).index ++
          [⟨v.name, specNextStart (FFIndex.mk [⟨[97], 0, 4⟩, ⟨[98], 4, 6⟩]
            [([97], ⟨[97], 0, 4⟩), ([98], ⟨[98], 4, 6⟩)]).index, v.size⟩] ∧
      ((FFIndex.mk [⟨[97], 0, 4⟩, ⟨[98], 4, 6⟩]
          [([97], ⟨[97], 0, 4⟩), ([98], ⟨[98], 4, 6⟩)]).append v).2 = some none) :=
  C1_append_contiguity [⟨[97], 99, 4⟩, ⟨[98], 7, 6⟩] _ (by decide)

/-- C6: appending a row whose name is already present always raises
(the duplicate-name assert), and the failed attempt leaves the whole
object — row list and lookup dict alike — exactly as it was. -/
theorem C6_duplicate_append_rejected (idx : FFIndex) (v : IndexRow)
    (hwf : idx.WF) (h : v.name ∈ idx.index.map IndexRow.name) :
    idx.append v = (idx, none) :=
  FFIndex.append_mem hwf h

/-- C6 witness: re-appending name `a` to a one-row index raises and
changes nothing. -/
theorem C6_witness :
    FFIndex.append ⟨[⟨[97], 0, 4⟩], [([97], ⟨[97], 0, 4⟩)]⟩ ⟨[97], 0, 9⟩ =
      (⟨[⟨[97], 0, 4⟩], [([97], ⟨[97], 0, 4⟩)]⟩, none) :=
  C6_duplicate_append_rejected _ _ (by decide) (by decide)

/-! ## Claims C10 and C7 -/

/-- C10: `FFDB.append_from` updates the destination index BEFORE the
data write, so when the copied bytes do not end with the sentinel the
`FFData.append` assert raises and the destination is left
inconsistent: the index has gained the new row while the data file
was never extended. -/
theorem C10_append_from_not_atomic (db source : FFDB) (row : IndexRow)
    (hwf : db.index.WF)
    (hfresh : row.name ∉ db.index.index.map IndexRow.name)
    (hbad : (readRange source.data row.start row.size).getLast? ≠ some 0) :
    db.append_from source row =
      (⟨db.data,
        ⟨db.index.index ++ [⟨row.name, specNextStart db.index.index, row.size⟩],
         db.index.lookup ++
           [(row.name, ⟨row.name, specNextStart db.index.index, row.size⟩)]⟩⟩,
       none) := by
  unfold FFDB.append_from
  rw [FFIndex.append_fresh hwf hfresh]
  unfold FFData.appendData
  dsimp only
  rw [if_neg hbad]

/-- C10 witness: copying the 2-byte record `hi` (no trailing
sentinel) into an empty database raises, leaving a row `(x, 0, 2)` in
the index and an empty data file. -/
theorem C10_witness :
    FFDB.append_from FFDB.new ⟨[104, 105], ⟨[⟨[120], 0, 2⟩], [([120], ⟨[120], 0, 2⟩)]⟩⟩
        ⟨[120], 0, 2⟩ =
      (⟨[], ⟨[⟨[120], 0, 2⟩], [([120], ⟨[120], 0, 2⟩)]⟩⟩, none) := by
  have h := C10_append_from_not_atomic FFDB.new
    ⟨[104, 105], ⟨[⟨[120], 0, 2⟩], [([120], ⟨[120], 0, 2⟩)]⟩⟩
    ⟨[120], 0, 2⟩ (by decide) (by decide) (by decide)
  exact h.trans (by decide)

/-- C7: `FFDB.append` (the spec's `append_raw`) appends nothing extra
when the blob already ends with the sentinel, and exactly one
sentinel byte when it does not; the fresh index row is sized to the
written blob and placed at the next contiguous offset. -/
theorem C7_append_raw_sentinel (db : FFDB) (data key : List Nat)
    (hwf : db.index.WF)
    (hfresh : key ∉ db.index.index.map IndexRow.name) :
    (data.getLast? = some 0 →
      db.append data key =
        (⟨db.data ++ data,
          ⟨db.index.index ++ [⟨key, specNextStart db.index.index, data.length⟩],
           db.index.lookup ++
             [(key, ⟨key, specNextStart db.index.index, data.length⟩)]⟩⟩,
         some data.length)) ∧
    (data.getLast? ≠ some 0 →
      db.append data key =
        (⟨db.data ++ (data ++ [0]),
          ⟨db.index.index ++
             [⟨key, specNextStart db.index.index, data.length + 1⟩],
           db.index.lookup ++
             [(key, ⟨key, specNextStart db.index.index, data.length + 1⟩)]⟩⟩,
         some (data.length + 1))) := by
  constructor
  · intro h
    unfold FFDB.append FFData.appendData
    rw [if_pos h]
    dsimp only
    rw [if_pos h]
    dsimp only
    rw [FFIndex.append_fresh hwf hfresh]
  · intro h
    unfold FFDB.append FFData.appendData
    rw [if_neg h]
    dsimp only
    rw [if_pos (List.getLast?_concat data)]
    dsimp only
    rw [FFIndex.append_fresh hwf hfresh]
    simp

/-- C7 witness: `append_raw("x", b"hello")` on an empty database
yields index row `(x, 0, 6)` and a 6-byte data file ending in the
sentinel. -/
theorem C7_witness :
    FFDB.append FFDB.new [104, 101, 108, 108, 111] [120] =
      (⟨[104, 101, 108, 108, 111, 0],
        ⟨[⟨[120], 0, 6⟩], [([120], ⟨[120], 0, 6⟩)]⟩⟩, some 6) := by
  have h := (C7_append_raw_sentinel FFDB.new [104, 101, 108, 108, 111] [120]
    (by decide) (by decide)).2 (by decide)
  exact h.trans (by decide)

/-! ## Claim C8: documents(trim) -/

theorem documentsGo_none (data : List Nat) :
    ∀ rows : List IndexRow,
      FFDB.documentsGo data none rows =
        rows.map (fun r => (r.name, (readRange data r.start r.size).dropLast))
  | [] => rfl
  | r :: rs => by
    simp only [FFDB.documentsGo, List.map_cons]
    rw [documentsGo_none data rs]

theorem documentsGo_some (data : List Nat) (t : Nat) :
    ∀ rows : List IndexRow,
      FFDB.documentsGo data (some t) rows =
        rows.filterMap (fun r =>
          if t < (splitNL ((readRange data r.start r.size).dropLast)).length then
            some (r.name,
              joinNL ((splitNL ((readRange data r.start r.size).dropLast)).drop t))
          else none)
  | [] => rfl
  | r :: rs => by
    rw [List.filterMap_cons]
    by_cases h : t < (splitNL ((readRange data r.start r.size).dropLast)).length
    · have hne : ¬ ((splitNL ((readRange data r.start r.size).dropLast)).drop t).length = 0 := by
        simp only [List.length_drop]
        omega
      simp only [FFDB.documentsGo, if_neg hne, if_pos h]
      rw [documentsGo_some data t rs]
    · have hz : ((splitNL ((readRange data r.start r.size).dropLast)).drop t).length = 0 := by
        simp only [List.length_drop]
        omega
      simp only [FFDB.documentsGo, if_pos hz, if_neg h]
      rw [documentsGo_some data t rs]

/-- C8: `documents` iterates the index rows in order (the class keeps
`index` sorted ascending by `start`, here a hypothesis), strips
exactly the one trailing sentinel byte from each record, and under
`trim = t` drops the first `t` newline-delimited lines, skipping any
document with no line left; a one-line document is skipped entirely
under `trim = 1`. -/
theorem C8_documents_trim (db : FFDB) (t : Nat)
    (hsort : db.index.index.Pairwise (fun a b => a.start ≤ b.start))
    (hsent : ∀ r ∈ db.index.index,
      (readRange db.data r.start r.size).getLast? = some 0) :
    db.documents none = db.index.index.map
      (fun r => (r.name, (readRange db.data r.start r.size).dropLast)) ∧
    db.documents (some t) = db.index.index.filterMap
      (fun r =>
        if t < (splitNL ((readRange db.data r.start r.size).dropLast)).length then
          some (r.name,
            joinNL ((splitNL ((readRange db.data r.start r.size).dropLast)).drop t))
        else none) ∧
    (∀ r ∈ db.index.index,
      (readRange db.data r.start r.size).dropLast ++ [0] =
        readRange db.data r.start r.size) ∧
    (db.index.index.filter (fun r =>
        decide (t < (splitNL ((readRange db.data r.start r.size).dropLast)).length))).Pairwise
      (fun a b => a.start ≤ b.start) := by
  refine ⟨documentsGo_none db.data db.index.index,
    documentsGo_some db.data t db.index.index, ?_, ?_⟩
  · intro r hr
    obtain ⟨ys, hys⟩ := List.getLast?_eq_some_iff.mp (hsent r hr)
    rw [hys, List.dropLast_concat]
  · exact List.Pairwise.sublist (List.filter_sublist _) hsort

/-- C8 witness: a database holding the 3-line document `L1\nL2\nL3`
(record `x`) and the 1-line document `A` (record `y`); `trim = 1`
keeps only `L2\nL3` under `x` and skips `y` entirely, while
`trim = None` yields both bodies with their sentinels stripped. -/
theorem C8_witness :
    (FFDB.documents
        ⟨[76, 49, 10, 76, 50, 10, 76, 51, 0, 65, 0],
         ⟨[⟨[120], 0, 9⟩, ⟨[121], 9, 2⟩],
          [([120], ⟨[120], 0, 9⟩), ([121], ⟨[121], 9, 2⟩)]⟩⟩
        (some 1) = [([120], [76, 50, 10, 76, 51])]) ∧
    (FFDB.documents
        ⟨[76, 49, 10, 76, 50, 10, 76, 51, 0, 65, 0],
         ⟨[⟨[120], 0, 9⟩, ⟨[121], 9, 2⟩],
          [([120], ⟨[120], 0, 9⟩), ([121], ⟨[121], 9, 2⟩)]⟩⟩
        none =
      [([120], [76, 49, 10, 76, 50, 10, 76, 51]), ([121], [65])]) := by
  have h := C8_documents_trim
    ⟨[76, 49, 10, 76, 50, 10, 76, 51, 0, 65, 0],
     ⟨[⟨[120], 0, 9⟩, ⟨[121], 9, 2⟩],
      [([120], ⟨[120], 0, 9⟩), ([121], ⟨[121], 9, 2⟩)]⟩⟩
    1 (by decide) (by decide)
  exact ⟨h.2.1.trans (by decide), h.1.trans (by decide)⟩

/-! ## Record-by-record copying: `append_from` / `extend_from` -/

theorem readRange_append_of_le (d e : List Nat) (start size : Nat)
    (h : start + size ≤ d.length) :
    readRange (d ++ e) start size = readRange d start size := by
  unfold readRange
  rw [List.drop_append_of_le_length (by omega)]
  rw [List.take_append_of_le_length]
  rw [List.length_drop]
  omega

theorem readRange_exact (d blob e : List Nat) :
    readRange (d ++ (blob ++ e)) d.length blob.length = blob := by
  unfold readRange
  rw [List.drop_left, List.take_append_of_le_length (le_refl _), List.take_length]

theorem nextStartFrom_contiguous :
    ∀ (l : List IndexRow) (s : Nat), specContiguousFrom l s →
      nextStartFrom s l = s + specSumSizes l
  | [], s, _ => by simp [nextStartFrom, specSumSizes]
  | a :: l, s, h => by
    obtain ⟨h1, h2⟩ := h
    have ih := nextStartFrom_contiguous l (a.start + a.size) h2
    have heq : nextStartFrom s (a :: l) = nextStartFrom (a.start + a.size) l := by
      cases l with
      | nil => simp [nextStartFrom]
      | cons b l2 =>
        have h3 : nextStartFrom s (a :: b :: l2) = nextStartFrom s (b :: l2) := by
          unfold nextStartFrom
          rw [List.getLast?_cons_cons]
        rw [h3]
        exact nextStartFrom_cons s _ b l2
    rw [heq, ih]
    simp only [specSumSizes, List.map_cons, List.sum_cons]
    omega

theorem specNextStart_contiguous {l : List IndexRow}
    (h : specContiguousFrom l 0) : specNextStart l = specSumSizes l := by
  rw [specNextStart_eq_from, nextStartFrom_contiguous l 0 h]
  omega

theorem specRelocate_map_name :
    ∀ (R : List IndexRow) (base : Nat),
      (specRelocate R base).map IndexRow.name = R.map IndexRow.name
  | [], _ => rfl
  | r :: rs, base => by
    simp only [specRelocate, List.map_cons]
    rw [specRelocate_map_name rs]

theorem specRelocate_length :
    ∀ (R : List IndexRow) (base : Nat), (specRelocate R base).length = R.length
  | [], _ => rfl
  | r :: rs, base => by
    simp only [specRelocate, List.length_cons]
    rw [specRelocate_length rs]

theorem FFDB.append_from_ok (db source : FFDB) (r : IndexRow)
    (hwf : db.index.WF) (hfresh : r.name ∉ db.index.index.map IndexRow.name)
    (hsent : (readRange source.data r.start r.size).getLast? = some 0) :
    db.append_from source r =
      (⟨db.data ++ readRange source.data r.start r.size,
        ⟨db.index.index ++ [⟨r.name, specNextStart db.index.index, r.size⟩],
         db.index.lookup ++
           [(r.name, ⟨r.name, specNextStart db.index.index, r.size⟩)]⟩⟩,
       some (readRange source.data r.start r.size).length) := by
  unfold FFDB.append_from FFData.appendData
  rw [FFIndex.append_fresh hwf hfresh]
  dsimp only
  rw [if_pos hsent]

theorem extend_from_build (source : FFDB) :
    ∀ (R : List IndexRow) (db : FFDB),
      db.index.WF →
      specContiguousFrom db.index.index 0 →
      specSumSizes db.index.index = db.data.length →
      (∀ r ∈ R, r.name ∉ db.index.index.map IndexRow.name) →
      (R.map IndexRow.name).Nodup →
      (∀ r ∈ R, (readRange source.data r.start r.size).length = r.size ∧
        (readRange source.data r.start r.size).getLast? = some 0) →
      db.extend_from source R =
        (⟨db.data ++
            (R.map (fun r => readRange source.data r.start r.size)).flatten,
          ⟨db.index.index ++ specRelocate R db.data.length,
           db.index.lookup ++
             (specRelocate R db.data.length).map (fun r => (r.name, r))⟩⟩,
         some (specSumSizes R))
  | [], db, hwf, hcontig, hsum, hfresh, hnodup, hread => by
    simp [FFDB.extend_from, specRelocate, specSumSizes]
  | r :: rs, db, hwf, hcontig, hsum, hfresh, hnodup, hread => by
    have hnext : specNextStart db.index.index = db.data.length := by
      rw [specNextStart_contiguous hcontig, hsum]
    have hfr : r.name ∉ db.index.index.map IndexRow.name :=
      hfresh r (List.mem_cons_self r rs)
    have hrd := hread r (List.mem_cons_self r rs)
    have hap := FFDB.append_from_ok db source r hwf hfr hrd.2
    unfold FFDB.extend_from
    rw [hap]
    dsimp only
    set blob := readRange source.data r.start r.size with hblob
    have hbl : blob.length = r.size := hrd.1
    -- the database state after the first copy
    have hwf2 : (FFIndex.mk
        (db.index.index ++ [⟨r.name, specNextStart db.index.index, r.size⟩])
        (db.index.lookup ++
          [(r.name, ⟨r.name, specNextStart db.index.index, r.size⟩)])).WF := by
      have := FFIndex.append_wf hwf hfr
      rwa [FFIndex.append_fresh hwf hfr] at this
    have hcontig2 : specContiguousFrom
        (db.index.index ++ [⟨r.name, specNextStart db.index.index, r.size⟩]) 0 :=
      specContiguousFrom_append0 r r.size hcontig
    have hsum2 : specSumSizes
        (db.index.index ++ [⟨r.name, specNextStart db.index.index, r.size⟩]) =
        (db.data ++ blob).length := by
      unfold specSumSizes at hsum ⊢
      rw [List.map_append, List.sum_append, List.length_append, ← hsum, hbl]
      simp
    have hfresh2 : ∀ r2 ∈ rs, r2.name ∉
        (db.index.index ++
          [(⟨r.name, specNextStart db.index.index, r.size⟩ : IndexRow)]).map
          IndexRow.name := by
      intro r2 hr2
      rw [List.map_append, List.mem_append]
      rintro (hc | hc)
      · exact hfresh r2 (List.mem_cons_of_mem r hr2) hc
      · simp only [List.map_cons, List.map_nil, List.mem_singleton] at hc
        have := hnodup
        simp only [List.map_cons, List.nodup_cons] at this
        exact this.1 (hc ▸ List.mem_map_of_mem IndexRow.name hr2)
    have hnodup2 : (rs.map IndexRow.name).Nodup := by
      simp only [List.map_cons, List.nodup_cons] at hnodup
      exact hnodup.2
    have hread2 : ∀ r2 ∈ rs,
        (readRange source.data r2.start r2.size).length = r2.size ∧
        (readRange source.data r2.start r2.size).getLast? = some 0 :=
      fun r2 hr2 => hread r2 (List.mem_cons_of_mem r hr2)
    have ih := extend_from_build source rs
      ⟨db.data ++ blob,
        ⟨db.index.index ++ [⟨r.name, specNextStart db.index.index, r.size⟩],
         db.index.lookup ++
           [(r.name, ⟨r.name, specNextStart db.index.index, r.size⟩)]⟩⟩
      hwf2 hcontig2 hsum2 hfresh2 hnodup2 hread2
    rw [ih]
    dsimp only
    have hbase : (db.data ++ blob).length = db.data.length + r.size := by
      simp [hbl]
    congr 1
    · congr 1
      · simp only [List.map_cons, List.flatten_cons, ← hblob]
        rw [List.append_assoc]
      · congr 1
        · -- index lists agree
          rw [List.append_assoc]
          congr 1
          have : specRelocate (r :: rs) db.data.length =
              ⟨r.name, db.data.length, r.size⟩ :: specRelocate rs (db.data.length + r.size) := rfl
          rw [this, hbase, hnext]
          rfl
        · rw [List.append_assoc]
          congr 1
          have : specRelocate (r :: rs) db.data.length =
              ⟨r.name, db.data.length, r.size⟩ :: specRelocate rs (db.data.length + r.size) := rfl
          rw [this, hbase, hnext]
          rfl
    · have : specSumSizes (r :: rs) = r.size + specSumSizes rs := by
        simp [specSumSizes]
      rw [this, hbl]

theorem specRelocate_map_size :
    ∀ (R : List IndexRow) (base : Nat),
      (specRelocate R base).map IndexRow.size = R.map IndexRow.size
  | [], _ => rfl
  | r :: rs, base => by
    simp only [specRelocate, List.map_cons]
    rw [specRelocate_map_size rs]

theorem extend_from_new (source : FFDB) (R : List IndexRow)
    (hnodup : (R.map IndexRow.name).Nodup)
    (hread : ∀ r ∈ R, (readRange source.data r.start r.size).length = r.size ∧
      (readRange source.data r.start r.size).getLast? = some 0) :
    FFDB.new.extend_from source R =
      (⟨(R.map (fun r => readRange source.data r.start r.size)).flatten,
        ⟨specRelocate R 0, (specRelocate R 0).map (fun r => (r.name, r))⟩⟩,
       some (specSumSizes R)) := by
  have h := extend_from_build source R FFDB.new (by decide)
    trivial rfl (by intro r hr; simp [FFDB.new]) hnodup hread
  simpa [FFDB.new] using h

theorem reorder_from_ok (source : FFDB) (order : Option (List IndexRow))
    (hnodup : ((reorderIndices source order).map IndexRow.name).Nodup)
    (hread : ∀ r ∈ reorderIndices source order,
      (readRange source.data r.start r.size).length = r.size ∧
      (readRange source.data r.start r.size).getLast? = some 0) :
    source.reorder_from order = some
      ⟨((reorderIndices source order).map
          (fun r => readRange source.data r.start r.size)).flatten,
        ⟨specRelocate (reorderIndices source order) 0,
         (specRelocate (reorderIndices source order) 0).map
           (fun r => (r.name, r))⟩⟩ := by
  unfold FFDB.reorder_from
  rw [extend_from_new source _ hnodup hread]

theorem relocate_documents (source : FFDB) :
    ∀ (R : List IndexRow) (pre : List Nat),
      (∀ r ∈ R, (readRange source.data r.start r.size).length = r.size) →
      (specRelocate R pre.length).map (fun row =>
        (row.name, (readRange
          (pre ++ (R.map (fun r2 => readRange source.data r2.start r2.size)).flatten)
          row.start row.size).dropLast)) =
      R.map (fun r2 => (r2.name, (readRange source.data r2.start r2.size).dropLast))
  | [], pre, _ => by simp [specRelocate]
  | r :: rs, pre, h => by
    have hbl : (readRange source.data r.start r.size).length = r.size :=
      h r (List.mem_cons_self r rs)
    have ih := relocate_documents source rs
      (pre ++ readRange source.data r.start r.size)
      (fun r2 hr2 => h r2 (List.mem_cons_of_mem r hr2))
    simp only [List.map_cons, List.flatten_cons, specRelocate]
    congr 1
    · have hrd0 := readRange_exact pre (readRange source.data r.start r.size)
        ((rs.map (fun r2 => readRange source.data r2.start r2.size)).flatten)
      rw [hbl] at hrd0
      rw [hrd0]
    · have hassoc : pre ++ (readRange source.data r.start r.size ++
          (rs.map (fun r2 => readRange source.data r2.start r2.size)).flatten) =
          (pre ++ readRange source.data r.start r.size) ++
            (rs.map (fun r2 => readRange source.data r2.start r2.size)).flatten :=
        (List.append_assoc _ _ _).symm
      have hbase : pre.length + r.size =
          (pre ++ readRange source.data r.start r.size).length := by
        simp [hbl]
      rw [hassoc, hbase]
      exact ih

theorem built_documents (source : FFDB) (R : List IndexRow)
    (hread : ∀ r ∈ R, (readRange source.data r.start r.size).length = r.size) :
    FFDB.documents
      ⟨(R.map (fun r => readRange source.data r.start r.size)).flatten,
       ⟨specRelocate R 0, (specRelocate R 0).map (fun r => (r.name, r))⟩⟩ none =
    R.map (fun r => (r.name, (readRange source.data r.start r.size).dropLast)) := by
  unfold FFDB.documents
  dsimp only
  rw [documentsGo_none]
  have h := relocate_documents source R [] hread
  simpa using h

theorem source_documents_eq (source : FFDB) :
    source.documents none = source.index.index.map
      (fun r => (r.name, (readRange source.data r.start r.size).dropLast)) := by
  unfold FFDB.documents
  exact documentsGo_none source.data source.index.index

/-! ## Claim C5: reorder -/

/-- C5: `reorder_from` with an explicit order that is a permutation
of the index produces a database with the same records — same count,
names following the order, documents byte-identical to the source and
a permutation of the source's documents; with no explicit order the
records are copied in descending-size order; and the split script's
order-length validation rejects any order list whose length differs
from the index. -/
theorem C5_reorder_permutation (source : FFDB) (order : Option (List IndexRow))
    (hwf : source.index.WF) (hread : source.ReadOK)
    (hperm : ∀ o, order = some o → o.Perm source.index.index) :
    (∃ db2, source.reorder_from order = some db2 ∧
      db2.index.index.length = source.index.index.length ∧
      db2.index.index.map IndexRow.name =
        (reorderIndices source order).map IndexRow.name ∧
      db2.documents none = (reorderIndices source order).map (fun r =>
        (r.name, (readRange source.data r.start r.size).dropLast)) ∧
      (db2.documents none).Perm (source.documents none) ∧
      (order = none →
        (db2.index.index.map IndexRow.size).Pairwise (fun a b => b ≤ a))) ∧
    (∀ o2 : List IndexRow, o2.length ≠ source.index.index.length →
      splitOrderCheck source o2 = none) := by
  have hch : (reorderIndices source order).Perm source.index.index := by
    cases order with
    | none => exact insertionSort_perm _ source.index.index
    | some o => exact hperm o rfl
  have hnodup : ((reorderIndices source order).map IndexRow.name).Nodup :=
    ((hch.map IndexRow.name).nodup_iff).mpr hwf.1
  have hreadI : ∀ r ∈ reorderIndices source order,
      (readRange source.data r.start r.size).length = r.size ∧
      (readRange source.data r.start r.size).getLast? = some 0 :=
    fun r hr => hread r (hch.subset hr)
  refine ⟨⟨_, reorder_from_ok source order hnodup hreadI, ?_, ?_, ?_, ?_, ?_⟩, ?_⟩
  · dsimp only
    rw [specRelocate_length, hch.length_eq]
  · dsimp only
    rw [specRelocate_map_name]
  · exact built_documents source _ (fun r hr => (hreadI r hr).1)
  · rw [built_documents source _ (fun r hr => (hreadI r hr).1),
      source_documents_eq]
    exact hch.map _
  · intro hnone
    subst hnone
    dsimp only
    rw [specRelocate_map_size]
    rw [List.pairwise_map]
    have hs := insertionSort_pairwise
      (fun a b : IndexRow => decide (b.size ≤ a.size))
      (fun a b c hab hbc => by
        simp only [decide_eq_true_eq] at *
        omega)
      (fun a b => by
        simp only [Bool.or_eq_true, decide_eq_true_eq]
        omega)
      source.index.index
    exact hs.imp (fun h => by simpa using h)
  · intro o2 hne
    unfold splitOrderCheck
    rw [if_neg hne]

/-- C5 witness: a two-record database reordered by the explicit
permutation `[b, a]` keeps both records byte-for-byte, in the new
order. -/
theorem C5_witness :
    (∃ db2, FFDB.reorder_from
        ⟨[65, 0, 66, 66, 0],
         ⟨[⟨[97], 0, 2⟩, ⟨[98], 2, 3⟩],
          [([97], ⟨[97], 0, 2⟩), ([98], ⟨[98], 2, 3⟩)]⟩⟩
        (some [⟨[98], 2, 3⟩, ⟨[97], 0, 2⟩]) = some db2 ∧
      db2.index.index.length = 2 ∧
      db2.index.index.map IndexRow.name = [[98], [97]] ∧
      db2.documents none = [([98], [66, 66]), ([97], [65])] ∧
      (db2.documents none).Perm [([97], [65]), ([98], [66, 66])]) := by
  have h := (C5_reorder_permutation
    ⟨[65, 0, 66, 66, 0],
     ⟨[⟨[97], 0, 2⟩, ⟨[98], 2, 3⟩],
      [([97], ⟨[97], 0, 2⟩), ([98], ⟨[98], 2, 3⟩)]⟩⟩
    (some [⟨[98], 2, 3⟩, ⟨[97], 0, 2⟩])
    (by decide) (by decide)
    (fun o ho => by cases ho; decide)).1
  obtain ⟨db2, h1, h2, h3, h4, h5, _⟩ := h
  exact ⟨db2, h1, h2.trans (by decide), h3.trans (by decide),
    h4.trans (by decide), h5.trans (by decide)⟩

/-! ## Claim C4: concat -/

theorem specRelocate_of_contiguous :
    ∀ (R : List IndexRow) (s : Nat), specContiguousFrom R s →
      specRelocate R s = R
  | [], _, _ => rfl
  | r :: rs, s, h => by
    obtain ⟨h1, h2⟩ := h
    simp only [specRelocate]
    subst h1
    rw [specRelocate_of_contiguous rs _ h2]

theorem contiguous_row_bound :
    ∀ (l : List IndexRow) (s : Nat), specContiguousFrom l s →
      ∀ r ∈ l, r.start + r.size ≤ s + specSumSizes l
  | [], _, _, r, hr => by simp at hr
  | a :: l, s, h, r, hr => by
    obtain ⟨h1, h2⟩ := h
    rcases List.mem_cons.mp hr with rfl | hr2
    · have : 0 ≤ specSumSizes l := Nat.zero_le _
      simp only [specSumSizes, List.map_cons, List.sum_cons] at *
      omega
    · have ih := contiguous_row_bound l (a.start + a.size) h2 r hr2
      simp only [specSumSizes, List.map_cons, List.sum_cons] at *
      omega

theorem extendGo_relocate :
    ∀ (R : List IndexRow) (idx : FFIndex),
      idx.WF → specContiguousFrom idx.index 0 →
      (∀ r ∈ R, r.name ∉ idx.index.map IndexRow.name) →
      (R.map IndexRow.name).Nodup →
      idx.extendGo R =
        (⟨idx.index ++ specRelocate R (specSumSizes idx.index),
          idx.lookup ++ (specRelocate R (specSumSizes idx.index)).map
            (fun r => (r.name, r))⟩, some ())
  | [], idx, hwf, hcontig, hfresh, hnodup => by
    simp [FFIndex.extendGo, specRelocate]
  | r :: rs, idx, hwf, hcontig, hfresh, hnodup => by
    have hnext : specNextStart idx.index = specSumSizes idx.index :=
      specNextStart_contiguous hcontig
    have hfr : r.name ∉ idx.index.map IndexRow.name :=
      hfresh r (List.mem_cons_self r rs)
    unfold FFIndex.extendGo
    rw [FFIndex.append_fresh hwf hfr]
    dsimp only
    have hwf2 : (FFIndex.mk
        (idx.index ++ [⟨r.name, specNextStart idx.index, r.size⟩])
        (idx.lookup ++
          [(r.name, ⟨r.name, specNextStart idx.index, r.size⟩)])).WF := by
      have := FFIndex.append_wf hwf hfr
      rwa [FFIndex.append_fresh hwf hfr] at this
    have hcontig2 : specContiguousFrom
        (idx.index ++ [⟨r.name, specNextStart idx.index, r.size⟩]) 0 :=
      specContiguousFrom_append0 r r.size hcontig
    have hfresh2 : ∀ r2 ∈ rs, r2.name ∉
        (idx.index ++
          [(⟨r.name, specNextStart idx.index, r.size⟩ : IndexRow)]).map
          IndexRow.name := by
      intro r2 hr2
      rw [List.map_append, List.mem_append]
      rintro (hc | hc)
      · exact hfresh r2 (List.mem_cons_of_mem r hr2) hc
      · simp only [List.map_cons, List.map_nil, List.mem_singleton] at hc
        have hn := hnodup
        simp only [List.map_cons, List.nodup_cons] at hn
        exact hn.1 (hc ▸ List.mem_map_of_mem IndexRow.name hr2)
    have hnodup2 : (rs.map IndexRow.name).Nodup := by
      simp only [List.map_cons, List.nodup_cons] at hnodup
      exact hnodup.2
    have ih := extendGo_relocate rs
      ⟨idx.index ++ [⟨r.name, specNextStart idx.index, r.size⟩],
        idx.lookup ++ [(r.name, ⟨r.name, specNextStart idx.index, r.size⟩)]⟩
      hwf2 hcontig2 hfresh2 hnodup2
    rw [ih]
    dsimp only
    have hsum2 : specSumSizes
        (idx.index ++ [(⟨r.name, specNextStart idx.index, r.size⟩ : IndexRow)]) =
        specSumSizes idx.index + r.size := by
      unfold specSumSizes
      rw [List.map_append, List.sum_append]
      simp
    congr 1
    · congr 1
      · rw [List.append_assoc]
        congr 1
        have hrel : specRelocate (r :: rs) (specSumSizes idx.index) =
            ⟨r.name, specSumSizes idx.index, r.size⟩ ::
              specRelocate rs (specSumSizes idx.index + r.size) := rfl
        rw [hrel, hsum2, hnext]
        rfl
      · rw [List.append_assoc]
        congr 1
        have hrel : specRelocate (r :: rs) (specSumSizes idx.index) =
            ⟨r.name, specSumSizes idx.index, r.size⟩ ::
              specRelocate rs (specSumSizes idx.index + r.size) := rfl
        rw [hrel, hsum2, hnext]
        rfl

theorem FFIndex.extend_relocate (idx : FFIndex) (R : List IndexRow)
    (hwf : idx.WF) (hcontig : specContiguousFrom idx.index 0)
    (hfresh : ∀ r ∈ R, r.name ∉ idx.index.map IndexRow.name)
    (hnodup : (R.map IndexRow.name).Nodup) :
    idx.extend R =
      (⟨idx.index ++ specRelocate R (specSumSizes idx.index),
        idx.lookup ++ (specRelocate R (specSumSizes idx.index)).map
          (fun r => (r.name, r))⟩, some R.length) := by
  unfold FFIndex.extend
  rw [extendGo_relocate R idx hwf hcontig hfresh hnodup]

theorem relocate_shift_reads (e d : List Nat) :
    ∀ (R : List IndexRow) (s : Nat), specContiguousFrom R s →
      (specRelocate R (d.length + s)).map (fun row =>
        (row.name, (readRange (d ++ e) row.start row.size).dropLast)) =
      R.map (fun r => (r.name, (readRange e r.start r.size).dropLast))
  | [], _, _ => rfl
  | r :: rs, s, h => by
    obtain ⟨h1, h2⟩ := h
    simp only [specRelocate, List.map_cons]
    congr 1
    · have hrd : readRange (d ++ e) (d.length + s) r.size =
          readRange e s r.size := by
        unfold readRange
        rw [List.drop_append]
      rw [hrd, h1]
    · have hb : d.length + s + r.size = d.length + (s + r.size) := by omega
      rw [hb, ← h1]
      have ih := relocate_shift_reads e d rs (r.start + r.size) h2
      rw [h1] at ih ⊢
      exact ih

theorem reads_prefix (d e : List Nat) (R : List IndexRow)
    (h : ∀ r ∈ R, r.start + r.size ≤ d.length) :
    R.map (fun r => (r.name, (readRange (d ++ e) r.start r.size).dropLast)) =
    R.map (fun r => (r.name, (readRange d r.start r.size).dropLast)) := by
  apply List.map_eq_map_iff.mpr
  intro r hr
  rw [readRange_append_of_le d e r.start r.size (h r hr)]

/-- C4 (amended): for databases `A` and `B` whose index rows are
contiguous from offset 0, where additionally `A`'s data file is
exactly tiled by its rows (total row size = data length — without
this, `B`'s re-based offsets point into the wrong bytes, see the
counterexample) and no name is shared between the inputs,
`concat([A, B])` on an empty database concatenates the data files
and re-bases `B`'s rows after `A`'s, so the resulting documents are
exactly `A`'s documents followed by `B`'s, each byte-identical to
its source. -/
theorem C4_concat_preserves (A B : FFDB)
    (hwfA : A.index.WF) (hwfB : B.index.WF)
    (hcA : specContiguousFrom A.index.index 0)
    (hcB : specContiguousFrom B.index.index 0)
    (htA : specSumSizes A.index.index = A.data.length)
    (hdisj : ∀ r ∈ B.index.index,
      r.name ∉ A.index.index.map IndexRow.name) :
    ∃ C, FFDB.concat FFDB.new [A, B] = (C, some ()) ∧
      C.data = A.data ++ B.data ∧
      C.index.index.map IndexRow.name =
        A.index.index.map IndexRow.name ++ B.index.index.map IndexRow.name ∧
      C.documents none = A.documents none ++ B.documents none := by
  have hext1 := FFIndex.extend_relocate ⟨[], []⟩ A.index.index (by decide)
    trivial (by intro r hr; simp) hwfA.1
  have hrelA : specRelocate A.index.index (specSumSizes ([] : List IndexRow)) =
      A.index.index := by
    have h0 : specSumSizes ([] : List IndexRow) = 0 := rfl
    rw [h0]
    exact specRelocate_of_contiguous A.index.index 0 hcA
  rw [hrelA] at hext1
  have hwf1 : (FFIndex.mk A.index.index
      (([] : List (List Nat × IndexRow)) ++
        A.index.index.map (fun r => (r.name, r)))).WF := by
    constructor
    · exact hwfA.1
    · simp
  have hc1 : specContiguousFrom
      (([] : List IndexRow) ++ A.index.index) 0 := by
    simpa using hcA
  have hext2 := FFIndex.extend_relocate
    ⟨A.index.index, ([] : List (List Nat × IndexRow)) ++
      A.index.index.map (fun r => (r.name, r))⟩
    B.index.index hwf1 (by simpa using hcA) hdisj hwfB.1
  unfold FFDB.concat FFDB.concatGo
  rw [show FFDB.new.index = (⟨[], []⟩ : FFIndex) from rfl, hext1]
  dsimp only
  unfold FFDB.concatGo
  dsimp only at hext2 ⊢
  simp only [List.nil_append] at hext2 ⊢
  rw [hext2]
  dsimp only
  refine ⟨_, rfl, ?_, ?_, ?_⟩
  · simp [FFDB.new]
  · rw [List.map_append, specRelocate_map_name]
  · unfold FFDB.documents
    dsimp only
    rw [documentsGo_none]
    rw [List.map_append]
    congr 1
    · have hb : ∀ r ∈ A.index.index, r.start + r.size ≤
          (FFDB.new.data ++ A.data).length := by
        intro r hr
        have hbd := contiguous_row_bound A.index.index 0 hcA r hr
        have hl : (FFDB.new.data ++ A.data).length = A.data.length := by
          simp [FFDB.new]
        rw [hl]
        omega
      have h1 := reads_prefix (FFDB.new.data ++ A.data) B.data A.index.index hb
      rw [h1]
      rw [documentsGo_none A.data A.index.index]
      simp [FFDB.new]
    · have hsl : specSumSizes A.index.index =
          (FFDB.new.data ++ A.data).length := by
        simp [FFDB.new, htA]
      rw [hsl]
      have h2 := relocate_shift_reads B.data (FFDB.new.data ++ A.data)
        B.index.index 0 hcB
      rw [Nat.add_zero] at h2
      rw [h2, documentsGo_none B.data B.index.index]

/-- C4 counterexample: `A`'s single row `(a, 0, 2)` is contiguous
from offset 0, but `A`'s data file carries one extra trailing byte
(`99`) beyond the tiled range.  After `concat([A, B])` the copy of
`B`'s record `b` is indexed at offset 2 of the concatenated file and
now reads `[99, 6]`, so the document `(b, [6])` of the union is
missing from the result. -/
theorem C4_counterexample :
    specContiguousFrom
      (FFDB.mk [5, 0, 99] ⟨[⟨[97], 0, 2⟩], [([97], ⟨[97], 0, 2⟩)]⟩).index.index 0 ∧
    specContiguousFrom
      (FFDB.mk [6, 0] ⟨[⟨[98], 0, 2⟩], [([98], ⟨[98], 0, 2⟩)]⟩).index.index 0 ∧
    (([98], [6]) ∈
      (FFDB.mk [5, 0, 99] ⟨[⟨[97], 0, 2⟩], [([97], ⟨[97], 0, 2⟩)]⟩).documents none ++
      (FFDB.mk [6, 0] ⟨[⟨[98], 0, 2⟩], [([98], ⟨[98], 0, 2⟩)]⟩).documents none) ∧
    (([98], [6]) ∉
      ((FFDB.concat FFDB.new
        [FFDB.mk [5, 0, 99] ⟨[⟨[97], 0, 2⟩], [([97], ⟨[97], 0, 2⟩)]⟩,
         FFDB.mk [6, 0] ⟨[⟨[98], 0, 2⟩], [([98], ⟨[98], 0, 2⟩)]⟩]).1.documents none)) ∧
    (FFDB.concat FFDB.new
      [FFDB.mk [5, 0, 99] ⟨[⟨[97], 0, 2⟩], [([97], ⟨[97], 0, 2⟩)]⟩,
       FFDB.mk [6, 0] ⟨[⟨[98], 0, 2⟩], [([98], ⟨[98], 0, 2⟩)]⟩]).2 = some () := by
  decide

/-- C4 witness: two well-tiled single-record databases concatenate
into the two-record database holding both documents in order. -/
theorem C4_witness :
    ∃ C, FFDB.concat FFDB.new
        [FFDB.mk [5, 0] ⟨[⟨[97], 0, 2⟩], [([97], ⟨[97], 0, 2⟩)]⟩,
         FFDB.mk [6, 0] ⟨[⟨[98], 0, 2⟩], [([98], ⟨[98], 0, 2⟩)]⟩] = (C, some ()) ∧
      C.data = [5, 0] ++ [6, 0] ∧
      C.index.index.map IndexRow.name = [[97]] ++ [[98]] ∧
      C.documents none =
        (FFDB.mk [5, 0] ⟨[⟨[97], 0, 2⟩], [([97], ⟨[97], 0, 2⟩)]⟩).documents none ++
        (FFDB.mk [6, 0] ⟨[⟨[98], 0, 2⟩], [([98], ⟨[98], 0, 2⟩)]⟩).documents none := by
  obtain ⟨C, h1, h2, h3, h4⟩ := C4_concat_preserves
    (FFDB.mk [5, 0] ⟨[⟨[97], 0, 2⟩], [([97], ⟨[97], 0, 2⟩)]⟩)
    (FFDB.mk [6, 0] ⟨[⟨[98], 0, 2⟩], [([98], ⟨[98], 0, 2⟩)]⟩)
    (by decide) (by decide) (by decide) (by decide) (by decide) (by decide)
  exact ⟨C, h1, h2, h3.trans (by decide), h4⟩

/-! ## Claim C3: partition — stride-slice combinatorics -/

theorem sliceStrideGo_fuel (k : Nat) :
    ∀ (f1 : Nat) (l : List α) (f2 : Nat), l.length ≤ f1 → l.length ≤ f2 →
      sliceStrideGo k f1 l = sliceStrideGo k f2 l
  | f1, [], f2, _, _ => by cases f1 <;> cases f2 <;> rfl
  | 0, x :: xs, _, h1, _ => absurd h1 (by simp)
  | _ + 1, x :: xs, 0, _, h2 => absurd h2 (by simp)
  | f1 + 1, x :: xs, f2 + 1, h1, h2 => by
    show x :: sliceStrideGo k f1 (xs.drop (k - 1)) =
      x :: sliceStrideGo k f2 (xs.drop (k - 1))
    congr 1
    refine sliceStrideGo_fuel k f1 (xs.drop (k - 1)) f2 ?_ ?_
    · simp only [List.length_drop]
      simp only [List.length_cons] at h1
      omega
    · simp only [List.length_drop]
      simp only [List.length_cons] at h2
      omega

theorem sliceStride_nil (k : Nat) : sliceStride k ([] : List α) = [] := rfl

theorem sliceStride_cons (k : Nat) (x : α) (xs : List α) :
    sliceStride k (x :: xs) = x :: sliceStride k (xs.drop (k - 1)) := by
  show x :: sliceStrideGo k xs.length (xs.drop (k - 1)) =
    x :: sliceStrideGo k (xs.drop (k - 1)).length (xs.drop (k - 1))
  congr 1
  refine sliceStrideGo_fuel k xs.length (xs.drop (k - 1))
    (xs.drop (k - 1)).length ?_ (le_refl _)
  simp only [List.length_drop]
  omega

theorem sliceStride_sublist (k : Nat) : ∀ l : List α, (sliceStride k l).Sublist l
  | [] => by simp [sliceStride_nil]
  | x :: xs => by
    rw [sliceStride_cons]
    exact List.Sublist.cons₂ x
      ((sliceStride_sublist k (xs.drop (k - 1))).trans (List.drop_sublist _ _))
termination_by l => l.length
decreasing_by simp only [List.length_drop, List.length_cons]; omega

theorem sliceStride_getElem (k : Nat) (hk : 0 < k) :
    ∀ (m i : Nat) (l : List α),
      (sliceStride k (l.drop i))[m]? = l[i + m * k]?
  | 0, i, l => by
    cases hd : l.drop i with
    | nil =>
      have hlen : l.length ≤ i := by
        have h2 := congrArg List.length hd
        simp only [List.length_drop, List.length_nil] at h2
        omega
      rw [sliceStride_nil, List.getElem?_nil]
      rw [List.getElem?_eq_none (by omega)]
    | cons x xs =>
      rw [sliceStride_cons]
      have hx : l[i + 0 * k]? = some x := by
        rw [Nat.zero_mul, Nat.add_zero, ← List.head?_drop, hd]
        rfl
      rw [hx]
      exact List.getElem?_cons_zero
  | m + 1, i, l => by
    cases hd : l.drop i with
    | nil =>
      have hlen : l.length ≤ i := by
        have h2 := congrArg List.length hd
        simp only [List.length_drop, List.length_nil] at h2
        omega
      rw [sliceStride_nil, List.getElem?_nil]
      rw [List.getElem?_eq_none (by omega)]
    | cons x xs =>
      rw [sliceStride_cons, List.getElem?_cons_succ]
      have hxs : xs = l.drop (i + 1) := by
        have h2 : (l.drop i).tail = xs := by rw [hd]; rfl
        rw [List.tail_drop] at h2
        exact h2.symm
      have hdd : xs.drop (k - 1) = l.drop (i + k) := by
        rw [hxs, List.drop_drop]
        congr 1
        omega
      rw [hdd, sliceStride_getElem k hk m (i + k) l]
      congr 1
      ring

theorem range_filterMap_getElem (l : List α) :
    ∀ k, (List.range k).filterMap (fun i => l[i]?) = l.take k
  | 0 => by simp
  | k + 1 => by
    rw [List.range_succ, List.filterMap_append, range_filterMap_getElem l k]
    cases hlt : l[k]? with
    | none =>
      have hlen : l.length ≤ k := List.getElem?_eq_none_iff.mp hlt
      rw [List.take_of_length_le hlen, List.take_of_length_le (by omega)]
      simp [hlt]
    | some x =>
      rw [List.take_succ]
      simp [hlt]

theorem consOpt_flatten_perm (f : Nat → Option α) (g : Nat → List α) :
    ∀ is : List Nat, (∀ i ∈ is, f i = none → g i = []) →
      ((is.map (fun i => match f i with | some x => x :: g i | none => [])).flatten).Perm
        (is.filterMap f ++ (is.map g).flatten)
  | [], _ => by simp
  | i :: is, h => by
    have ih := consOpt_flatten_perm f g is
      (fun j hj => h j (List.mem_cons_of_mem _ hj))
    cases hf : f i with
    | none =>
      have hg := h i (List.mem_cons_self _ _) hf
      simp only [List.map_cons, List.flatten_cons, hf, hg, List.filterMap_cons,
        List.nil_append]
      simpa using ih
    | some x =>
      simp only [List.map_cons, List.flatten_cons, hf, List.filterMap_cons,
        List.cons_append]
      refine List.Perm.cons x ?_
      exact (List.Perm.append_left (g i) ih).trans
        (List.perm_append_comm_assoc _ _ _)


theorem strides_flatten_nil (k : Nat) :
    (((List.range k).map (fun i => sliceStride k (([] : List α).drop i))).flatten).Perm
      ([] : List α) := by
  have h : (List.range k).map (fun i => sliceStride k (([] : List α).drop i)) =
      (List.range k).map (fun _ => ([] : List α)) :=
    List.map_eq_map_iff.mpr (fun i _ => by rw [List.drop_nil, sliceStride_nil])
  rw [h]
  simp

theorem strides_flatten_perm_bounded (k : Nat) (hk : 0 < k) :
    ∀ (N : Nat) (l : List α), l.length ≤ N →
      (((List.range k).map (fun i => sliceStride k (l.drop i))).flatten).Perm l
  | 0, l, hlen => by
    have hnil : l = [] := List.length_eq_zero.mp (by omega)
    subst hnil
    exact strides_flatten_nil k
  | N + 1, l, hlen => by
    cases hl : l with
    | nil => exact strides_flatten_nil k
    | cons x xs =>
      subst hl
      have hstep : ∀ i, sliceStride k ((x :: xs).drop i) =
          (match (x :: xs)[i]? with
           | some y => y :: sliceStride k (((x :: xs).drop k).drop i)
           | none => []) := by
        intro i
        cases hd : (x :: xs).drop i with
        | nil =>
          have hnone : (x :: xs)[i]? = none := by
            rw [← List.head?_drop, hd]
            rfl
          rw [hnone, sliceStride_nil]
        | cons y ys =>
          have hsome : (x :: xs)[i]? = some y := by
            rw [← List.head?_drop, hd]
            rfl
          have hys : ys = (x :: xs).drop (i + 1) := by
            have h2 : ((x :: xs).drop i).tail = ys := by rw [hd]; rfl
            rw [List.tail_drop] at h2
            exact h2.symm
          have hdd : ys.drop (k - 1) = ((x :: xs).drop k).drop i := by
            rw [hys, List.drop_drop, List.drop_drop]
            congr 1
            omega
          rw [hsome, sliceStride_cons, hdd]
      have hmap : (List.range k).map (fun i => sliceStride k ((x :: xs).drop i)) =
          (List.range k).map (fun i =>
            match (x :: xs)[i]? with
            | some y => y :: sliceStride k (((x :: xs).drop k).drop i)
            | none => []) :=
        List.map_eq_map_iff.mpr (fun i _ => hstep i)
      rw [hmap]
      have hside : ∀ i ∈ List.range k, (x :: xs)[i]? = none →
          sliceStride k (((x :: xs).drop k).drop i) = [] := by
        intro i _ hni
        have hlen2 : (x :: xs).length ≤ i := List.getElem?_eq_none_iff.mp hni
        have hdn : ((x :: xs).drop k).drop i = [] := by
          rw [List.drop_drop, List.drop_eq_nil_iff]
          simp only [List.length_cons] at *
          omega
        rw [hdn, sliceStride_nil]
      have hperm1 := consOpt_flatten_perm (fun i => (x :: xs)[i]?)
        (fun i => sliceStride k (((x :: xs).drop k).drop i)) (List.range k) hside
      refine hperm1.trans ?_
      rw [range_filterMap_getElem (x :: xs) k]
      have ih := strides_flatten_perm_bounded k hk N ((x :: xs).drop k)
        (by simp only [List.length_drop, List.length_cons] at *; omega)
      refine (List.Perm.append_left _ ih).trans ?_
      rw [List.take_append_drop]

theorem strides_flatten_perm (k : Nat) (hk : 0 < k) (l : List α) :
    (((List.range k).map (fun i => sliceStride k (l.drop i))).flatten).Perm l :=
  strides_flatten_perm_bounded k hk l.length l (le_refl _)

theorem optionList_eq_some {α β : Type} (f : α → Option β) (g : α → β) :
    ∀ is : List α, (∀ i ∈ is, f i = some (g i)) →
      optionList (is.map f) = some (is.map g)
  | [], _ => rfl
  | i :: is, h => by
    simp only [List.map_cons]
    rw [show f i = some (g i) from h i (List.mem_cons_self _ _)]
    unfold optionList
    rw [optionList_eq_some f g is (fun j hj => h j (List.mem_cons_of_mem _ hj))]
    rfl


/-- The serialization loop succeeds whenever every row name is valid
UTF-8. -/
theorem serializeRows_some :
    ∀ (rows : List IndexRow), (∀ r ∈ rows, utf8Valid r.name = true) →
      ∃ out, serializeRows rows = some out
  | [], _ => ⟨[], rfl⟩
  | r :: rows, h => by
    obtain ⟨out, hout⟩ := serializeRows_some rows
      (fun x hx => h x (List.mem_cons_of_mem r hx))
    unfold serializeRows
    rw [h r (List.mem_cons_self r rows), if_pos rfl, hout]
    exact ⟨renderRow r ++ out, rfl⟩

/-- `write_to` succeeds whenever every row name is valid UTF-8. -/
theorem write_to_some (idx : FFIndex)
    (h : ∀ r ∈ idx.index, utf8Valid r.name = true) :
    ∃ out, idx.write_to = some out := by
  unfold FFIndex.write_to
  exact serializeRows_some _
    (fun r hr => h r ((insertionSort_perm _ _).mem_iff.mp hr))

/-- C3 (amended): with well-formed input (unique names, every record
range backed by data and sentinel-terminated), row names that are
valid UTF-8 (serializable by `write_to`) and `0 < n`, `partition`
writes exactly `ceil(m / n)` chunks; chunk `i` holds (in order) the
rows at positions `i, i + nchunks, i + 2 * nchunks, …` of the
descending-size (or explicitly supplied permutation) ordering, and
the chunks' rows taken together are a permutation of the source rows
— every record lands in exactly one chunk. -/
theorem C3_partition_coverage (db : FFDB) (order : Option (List IndexRow))
    (n : Nat) (hn : 0 < n) (hwf : db.index.WF) (hread : db.ReadOK)
    (hutf : ∀ r ∈ db.index.index, utf8Valid r.name = true)
    (hperm : ∀ o, order = some o → o.Perm db.index.index) :
    ∃ chunks,
      db.partition order n =
        some (chunks, specCeilDiv db.index.index.length n) ∧
      chunks.length = specCeilDiv db.index.index.length n ∧
      (∀ (i : Nat) (hi : i < chunks.length) (m : Nat),
        ((chunks[i]).index.index.map IndexRow.name)[m]? =
          ((reorderIndices db order)[i + m * specCeilDiv db.index.index.length n]?).map
            IndexRow.name) ∧
      ((chunks.map (fun c => c.index.index.map IndexRow.name)).flatten).Perm
        (db.index.index.map IndexRow.name) := by
  have hch : (reorderIndices db order).Perm db.index.index := by
    cases order with
    | none => exact insertionSort_perm _ db.index.index
    | some o => exact hperm o rfl
  have hnodupI : ((reorderIndices db order).map IndexRow.name).Nodup :=
    ((hch.map IndexRow.name).nodup_iff).mpr hwf.1
  set k := specCeilDiv db.index.index.length n with hkdef
  have hchunkok : ∀ i ∈ List.range k,
      db.reorder_from (some (sliceStride k ((reorderIndices db order).drop i))) =
      some ⟨((sliceStride k ((reorderIndices db order).drop i)).map
          (fun r => readRange db.data r.start r.size)).flatten,
        ⟨specRelocate (sliceStride k ((reorderIndices db order).drop i)) 0,
         (specRelocate (sliceStride k ((reorderIndices db order).drop i)) 0).map
           (fun r => (r.name, r))⟩⟩ := by
    intro i _
    have hsub : (sliceStride k ((reorderIndices db order).drop i)).Sublist
        (reorderIndices db order) :=
      (sliceStride_sublist k _).trans (List.drop_sublist _ _)
    exact reorder_from_ok db _
      (List.Nodup.sublist (hsub.map IndexRow.name) hnodupI)
      (fun r hr => hread r (hch.subset (hsub.subset hr)))
  have hchunkok2 : ∀ i ∈ List.range k,
      (db.reorder_from (some (sliceStride k ((reorderIndices db order).drop i)))).bind
        (fun chunkdb => chunkdb.index.write_to.map (fun _ => chunkdb)) =
      some ⟨((sliceStride k ((reorderIndices db order).drop i)).map
          (fun r => readRange db.data r.start r.size)).flatten,
        ⟨specRelocate (sliceStride k ((reorderIndices db order).drop i)) 0,
         (specRelocate (sliceStride k ((reorderIndices db order).drop i)) 0).map
           (fun r => (r.name, r))⟩⟩ := by
    intro i hi
    rw [hchunkok i hi, Option.some_bind]
    dsimp only
    obtain ⟨out, hw⟩ := write_to_some
      ⟨specRelocate (sliceStride k ((reorderIndices db order).drop i)) 0,
       (specRelocate (sliceStride k ((reorderIndices db order).drop i)) 0).map
         (fun r => (r.name, r))⟩
      (by
        intro r hr
        have hname : r.name ∈ (specRelocate
            (sliceStride k ((reorderIndices db order).drop i)) 0).map
            IndexRow.name := List.mem_map_of_mem IndexRow.name hr
        rw [specRelocate_map_name] at hname
        obtain ⟨r2, hr2, he⟩ := List.mem_map.mp hname
        rw [← he]
        have hsub : (sliceStride k ((reorderIndices db order).drop i)).Sublist
            (reorderIndices db order) :=
          (sliceStride_sublist k _).trans (List.drop_sublist _ _)
        exact hutf r2 (hch.subset (hsub.subset hr2)))
    rw [hw]
    rfl
  have hchunks : db.partitionChunks (reorderIndices db order) k =
      some ((List.range k).map (fun i =>
        (⟨((sliceStride k ((reorderIndices db order).drop i)).map
            (fun r => readRange db.data r.start r.size)).flatten,
          ⟨specRelocate (sliceStride k ((reorderIndices db order).drop i)) 0,
           (specRelocate (sliceStride k ((reorderIndices db order).drop i)) 0).map
             (fun r => (r.name, r))⟩⟩ : FFDB))) := by
    unfold FFDB.partitionChunks
    exact optionList_eq_some _ _ (List.range k) hchunkok2
  have hpart : db.partition order n =
      some ((List.range k).map (fun i =>
        (⟨((sliceStride k ((reorderIndices db order).drop i)).map
            (fun r => readRange db.data r.start r.size)).flatten,
          ⟨specRelocate (sliceStride k ((reorderIndices db order).drop i)) 0,
           (specRelocate (sliceStride k ((reorderIndices db order).drop i)) 0).map
             (fun r => (r.name, r))⟩⟩ : FFDB)), k) := by
    have hraw : (db.index.index.length + n - 1) / n = k := hkdef.symm
    cases order with
    | none =>
      unfold FFDB.partition
      rw [if_neg (by omega)]
      rw [hraw]
      rw [show sortBySizeDesc db.index.index = reorderIndices db none from rfl]
      rw [hchunks]
      rfl
    | some o =>
      unfold FFDB.partition
      rw [if_neg (by omega)]
      dsimp only
      rw [if_pos (hperm o rfl).length_eq]
      rw [hraw]
      rw [show o = reorderIndices db (some o) from rfl]
      rw [hchunks]
      rfl
  refine ⟨_, hpart, ?_, ?_, ?_⟩
  · rw [List.length_map, List.length_range]
  · intro i hi m
    have hik : i < k := by
      rw [List.length_map, List.length_range] at hi
      exact hi
    have hget : ((List.range k).map (fun i =>
        (⟨((sliceStride k ((reorderIndices db order).drop i)).map
            (fun r => readRange db.data r.start r.size)).flatten,
          ⟨specRelocate (sliceStride k ((reorderIndices db order).drop i)) 0,
           (specRelocate (sliceStride k ((reorderIndices db order).drop i)) 0).map
             (fun r => (r.name, r))⟩⟩ : FFDB)))[i] =
        (⟨((sliceStride k ((reorderIndices db order).drop i)).map
            (fun r => readRange db.data r.start r.size)).flatten,
          ⟨specRelocate (sliceStride k ((reorderIndices db order).drop i)) 0,
           (specRelocate (sliceStride k ((reorderIndices db order).drop i)) 0).map
             (fun r => (r.name, r))⟩⟩ : FFDB) := by
      rw [List.getElem_map]
      rw [List.getElem_range]
    rw [hget]
    dsimp only
    rw [specRelocate_map_name]
    rw [List.getElem?_map]
    rw [sliceStride_getElem k (by omega) m i]
  · have hmn : ((List.range k).map (fun i =>
        (⟨((sliceStride k ((reorderIndices db order).drop i)).map
            (fun r => readRange db.data r.start r.size)).flatten,
          ⟨specRelocate (sliceStride k ((reorderIndices db order).drop i)) 0,
           (specRelocate (sliceStride k ((reorderIndices db order).drop i)) 0).map
             (fun r => (r.name, r))⟩⟩ : FFDB))).map
          (fun c => c.index.index.map IndexRow.name) =
        (List.range k).map (fun i =>
          (sliceStride k ((reorderIndices db order).drop i)).map IndexRow.name) := by
      rw [List.map_map]
      apply List.map_eq_map_iff.mpr
      intro i _
      dsimp only [Function.comp]
      rw [specRelocate_map_name]
    rw [hmn]
    by_cases hm : db.index.index.length = 0
    · have hnil : db.index.index = [] := List.length_eq_zero.mp hm
      have hk0 : k = 0 := by
        rw [hkdef]
        unfold specCeilDiv
        rw [hm]
        exact Nat.div_eq_of_lt (by omega)
      rw [hk0, hnil]
      simp
    · have hk1 : 0 < k := by
        rw [hkdef]
        unfold specCeilDiv
        have h2 := (Nat.le_div_iff_mul_le hn).mpr
          (show 1 * n ≤ db.index.index.length + n - 1 by omega)
        omega
      have hcomp : (List.range k).map (fun i =>
          (sliceStride k ((reorderIndices db order).drop i)).map IndexRow.name) =
          ((List.range k).map
            (fun i => sliceStride k ((reorderIndices db order).drop i))).map
            (List.map IndexRow.name) := by
        rw [List.map_map]
        rfl
      rw [hcomp, ← List.map_flatten]
      exact ((strides_flatten_perm k hk1 _).map IndexRow.name).trans
        (hch.map IndexRow.name)

/-- C3 witness: a three-record database (sizes 3, 2, 1), `n = 2`:
two chunks, chunk 1 getting the rows at stride positions 0 and 2 of
the descending-size order, chunk 2 the row at position 1. -/
theorem C3_witness :
    ∃ chunks,
      FFDB.partition
        (FFDB.mk [65, 65, 0, 66, 0, 0]
          ⟨[⟨[97], 0, 3⟩, ⟨[98], 3, 2⟩, ⟨[99], 5, 1⟩],
           [([97], ⟨[97], 0, 3⟩), ([98], ⟨[98], 3, 2⟩),
            ([99], ⟨[99], 5, 1⟩)]⟩) none 2 =
        some (chunks, specCeilDiv
          (FFDB.mk [65, 65, 0, 66, 0, 0]
            ⟨[⟨[97], 0, 3⟩, ⟨[98], 3, 2⟩, ⟨[99], 5, 1⟩],
             [([97], ⟨[97], 0, 3⟩), ([98], ⟨[98], 3, 2⟩),
              ([99], ⟨[99], 5, 1⟩)]⟩).index.index.length 2) ∧
      chunks.length = specCeilDiv
        (FFDB.mk [65, 65, 0, 66, 0, 0]
          ⟨[⟨[97], 0, 3⟩, ⟨[98], 3, 2⟩, ⟨[99], 5, 1⟩],
           [([97], ⟨[97], 0, 3⟩), ([98], ⟨[98], 3, 2⟩),
            ([99], ⟨[99], 5, 1⟩)]⟩).index.index.length 2 ∧
      (∀ (i : Nat) (hi : i < chunks.length) (m : Nat),
        ((chunks[i]).index.index.map IndexRow.name)[m]? =
          ((reorderIndices
            (FFDB.mk [65, 65, 0, 66, 0, 0]
              ⟨[⟨[97], 0, 3⟩, ⟨[98], 3, 2⟩, ⟨[99], 5, 1⟩],
               [([97], ⟨[97], 0, 3⟩), ([98], ⟨[98], 3, 2⟩),
                ([99], ⟨[99], 5, 1⟩)]⟩) none)[i + m * specCeilDiv
            (FFDB.mk [65, 65, 0, 66, 0, 0]
              ⟨[⟨[97], 0, 3⟩, ⟨[98], 3, 2⟩, ⟨[99], 5, 1⟩],
               [([97], ⟨[97], 0, 3⟩), ([98], ⟨[98], 3, 2⟩),
                ([99], ⟨[99], 5, 1⟩)]⟩).index.index.length 2]?).map
            IndexRow.name) ∧
      ((chunks.map (fun c => c.index.index.map IndexRow.name)).flatten).Perm
        ((FFDB.mk [65, 65, 0, 66, 0, 0]
          ⟨[⟨[97], 0, 3⟩, ⟨[98], 3, 2⟩, ⟨[99], 5, 1⟩],
           [([97], ⟨[97], 0, 3⟩), ([98], ⟨[98], 3, 2⟩),
            ([99], ⟨[99], 5, 1⟩)]⟩).index.index.map IndexRow.name) :=
  C3_partition_coverage
    (FFDB.mk [65, 65, 0, 66, 0, 0]
      ⟨[⟨[97], 0, 3⟩, ⟨[98], 3, 2⟩, ⟨[99], 5, 1⟩],
       [([97], ⟨[97], 0, 3⟩), ([98], ⟨[98], 3, 2⟩),
        ([99], ⟨[99], 5, 1⟩)]⟩) none 2
    (by decide) (by decide) (by decide) (by decide)
    (fun o ho => Option.noConfusion ho)

/-- C3 counterexample: a single-record database satisfying every
data-model invariant of the spec (name non-empty and unique, range
backed by data and sentinel-terminated) whose name is the single byte
`0xFF` — not valid UTF-8.  The claim predicts `ceil(1/1) = 1` output
chunk, but `chunkdb.index.write_to` raises `UnicodeDecodeError`
while writing the chunk's index, so `partition` produces nothing. -/
theorem C3_counterexample :
    FFDB.partition
        (FFDB.mk [65, 0] ⟨[⟨[255], 0, 2⟩], [([255], ⟨[255], 0, 2⟩)]⟩) none 1 =
      none ∧
    (FFDB.mk [65, 0] ⟨[⟨[255], 0, 2⟩],
      [([255], ⟨[255], 0, 2⟩)]⟩).index.WF ∧
    FFDB.ReadOK
      (FFDB.mk [65, 0] ⟨[⟨[255], 0, 2⟩], [([255], ⟨[255], 0, 2⟩)]⟩) ∧
    specCeilDiv
      (FFDB.mk [65, 0] ⟨[⟨[255], 0, 2⟩],
        [([255], ⟨[255], 0, 2⟩)]⟩).index.index.length 1 = 1 := by
  refine ⟨by decide, by decide, by decide, by decide⟩

/-! ## Claim C9: quick_partition -/

/-- Spec side: the written form of one partition — the chunk's rows
re-based to offset 0 (with the constructor's lookup) and the single
byte range holding exactly the chunk's bytes. -/
def specPart (data : List Nat) (c : List IndexRow) (s : Nat) :
    FFIndex × List Nat :=
  (⟨specRelocate c 0, (specRelocate c 0).map (fun r => (r.name, r))⟩,
    readRange data s (specSumSizes c))

/-- Spec side: the partitions written for a group list `gs` whose
bytes start at offset `s` — all groups but the last, and the last
only when it holds more than one row. -/
def specQuickOut (data : List Nat) : List (List IndexRow) → Nat →
    List (FFIndex × List Nat)
  | [], _ => []
  | [c], s => if 1 < c.length then [specPart data c s] else []
  | c :: c2 :: cs, s =>
    specPart data c s :: specQuickOut data (c2 :: cs) (s + specSumSizes c)

theorem contiguous_le_start :
    ∀ (l : List IndexRow) (s : Nat), specContiguousFrom l s →
      ∀ r ∈ l, s ≤ r.start
  | [], _, _, r, hr => by simp at hr
  | a :: l, s, h, r, hr => by
    obtain ⟨h1, h2⟩ := h
    rcases List.mem_cons.mp hr with rfl | hr2
    · omega
    · have := contiguous_le_start l (a.start + a.size) h2 r hr2
      omega

theorem contiguous_pairwise_start :
    ∀ (l : List IndexRow) (s : Nat), specContiguousFrom l s →
      l.Pairwise (fun a b => a.start ≤ b.start)
  | [], _, _ => List.Pairwise.nil
  | a :: l, s, h => by
    obtain ⟨h1, h2⟩ := h
    refine List.Pairwise.cons ?_ (contiguous_pairwise_start l _ h2)
    intro b hb
    have := contiguous_le_start l (a.start + a.size) h2 b hb
    omega

theorem buildLookup_nodup :
    ∀ (R : List IndexRow) (acc : List (List Nat × IndexRow)),
      ((acc.map Prod.fst) ++ R.map IndexRow.name).Nodup →
      buildLookup acc R = some (acc ++ R.map (fun r => (r.name, r)))
  | [], acc, _ => by simp [buildLookup]
  | r :: rs, acc, h => by
    have hnotin : r.name ∉ acc.map Prod.fst := by
      intro hc
      have hdisj := List.disjoint_of_nodup_append h
      exact hdisj hc (by simp)
    have hany : acc.any (fun kv => decide (kv.1 = r.name)) = false := by
      rw [← Bool.not_eq_true]
      intro hc
      rw [List.any_eq_true] at hc
      obtain ⟨kv, hkv, he⟩ := hc
      rw [decide_eq_true_eq] at he
      exact hnotin (he ▸ List.mem_map_of_mem Prod.fst hkv)
    unfold buildLookup
    rw [hany]
    rw [if_neg Bool.false_ne_true]
    have h2 : (((acc ++ [(r.name, r)]).map Prod.fst) ++
        rs.map IndexRow.name).Nodup := by
      rw [List.map_append]
      rw [List.append_assoc]
      simpa using h
    rw [buildLookup_nodup rs (acc ++ [(r.name, r)]) h2]
    simp

theorem FFIndex.init_sorted {R : List IndexRow}
    (hsort : R.Pairwise (fun a b => a.start ≤ b.start))
    (hnodup : (R.map IndexRow.name).Nodup) :
    FFIndex.init R = some ⟨R, R.map (fun r => (r.name, r))⟩ := by
  unfold FFIndex.init
  have hs : sortByStart R = R := by
    unfold sortByStart
    exact insertionSort_of_sorted _ R (hsort.imp (by simp))
  rw [hs]
  rw [buildLookup_nodup R [] (by simpa using hnodup)]
  rfl

theorem map_shift_relocate (s : Nat) :
    ∀ (R : List IndexRow) (c : Nat), specContiguousFrom R (s + c) →
      R.map (fun r => (⟨r.name, ((r.start : Int) + -(s : Int)).toNat, r.size⟩ :
        IndexRow)) = specRelocate R c
  | [], _, _ => rfl
  | r :: rs, c, h => by
    obtain ⟨h1, h2⟩ := h
    simp only [List.map_cons, specRelocate]
    have h3 : specContiguousFrom rs (s + (c + r.size)) := by
      rw [h1] at h2
      have he : s + (c + r.size) = s + c + r.size := by omega
      rw [he]
      exact h2
    rw [map_shift_relocate s rs (c + r.size) h3]
    have hhead : (⟨r.name, ((r.start : Int) + -(s : Int)).toNat, r.size⟩ :
        IndexRow) = ⟨r.name, c, r.size⟩ := by
      have ht : ((r.start : Int) + -(s : Int)).toNat = c := by
        rw [h1]
        omega
      rw [ht]
    rw [hhead]

theorem specRelocate_contiguous :
    ∀ (R : List IndexRow) (base : Nat),
      specContiguousFrom (specRelocate R base) base
  | [], _ => trivial
  | r :: rs, base => ⟨rfl, specRelocate_contiguous rs (base + r.size)⟩

theorem write_quick_partition_spec (db : FFDB) (P : List IndexRow)
    (s stop : Nat) (hc : specContiguousFrom P s)
    (hnodup : (P.map IndexRow.name).Nodup)
    (hutf : ∀ r ∈ P, utf8Valid r.name = true)
    (hstop : stop = s + specSumSizes P) :
    db.write_quick_partition s stop P = some (specPart db.data P s) := by
  unfold FFDB.write_quick_partition
  rw [FFIndex.init_sorted (contiguous_pairwise_start P s hc) hnodup]
  dsimp only
  unfold FFIndex.bump_starts
  by_cases hs : s = 0
  · subst hs
    rw [if_pos (by norm_num)]
    dsimp only
    obtain ⟨out, hw⟩ := write_to_some
      ⟨P, P.map (fun r => (r.name, r))⟩ hutf
    rw [hw]
    simp only [Option.map]
    unfold specPart FFData.write_sized
    have hP : specRelocate P 0 = P := specRelocate_of_contiguous P 0 hc
    rw [hP, hstop]
    have hz : 0 + specSumSizes P - 0 = specSumSizes P := by omega
    rw [hz]
  · rw [if_neg (by
      intro hc2
      rw [neg_eq_zero] at hc2
      exact hs (by exact_mod_cast hc2))]
    dsimp only
    have hc0 : specContiguousFrom P (s + 0) := by
      rw [Nat.add_zero]
      exact hc
    rw [map_shift_relocate s P 0 hc0]
    rw [FFIndex.init_sorted
      (contiguous_pairwise_start _ 0 (specRelocate_contiguous P 0))
      (by rw [specRelocate_map_name]; exact hnodup)]
    dsimp only
    obtain ⟨out, hw⟩ := write_to_some
      ⟨specRelocate P 0, (specRelocate P 0).map (fun r => (r.name, r))⟩
      (by
        intro r hr
        have hname : r.name ∈ (specRelocate P 0).map IndexRow.name :=
          List.mem_map_of_mem IndexRow.name hr
        rw [specRelocate_map_name] at hname
        obtain ⟨r2, hr2, he⟩ := List.mem_map.mp hname
        rw [← he]
        exact hutf r2 hr2)
    rw [hw]
    simp only [Option.map]
    unfold specPart FFData.write_sized
    rw [hstop]
    have hz : s + specSumSizes P - s = specSumSizes P := by omega
    rw [hz]

theorem quickGo_spec (db : FFDB) (n : Nat) (hn : 0 < n) :
    ∀ (N : Nat) (rest : List IndexRow), rest.length ≤ N →
      ∀ (t i : Nat) (P : List IndexRow) (s part : Nat),
        (∀ j, j < t → (i + j) % n ≠ 0) → (i + t) % n = 0 →
        specContiguousFrom P s →
        specContiguousFrom rest (s + specSumSizes P) →
        ((P ++ rest).map IndexRow.name).Nodup →
        (∀ x ∈ P ++ rest, utf8Valid x.name = true) →
        db.quickGo n rest i s P part =
          some (specQuickOut db.data
              ((P ++ rest.take t) :: specChunksN n (rest.drop t)) s,
            part + ((P ++ rest.take t) :: specChunksN n (rest.drop t)).length - 1)
  | N, [], hlen, t, i, P, s, part, h1, h2, hcP, hcR, hnd, hutf => by
    simp only [List.take_nil, List.append_nil, List.drop_nil]
    simp only [specChunksN]
    have hnodupP : (P.map IndexRow.name).Nodup := by simpa using hnd
    have hutfP : ∀ x ∈ P, utf8Valid x.name = true :=
      fun x hx => hutf x (List.mem_append.mpr (Or.inl hx))
    unfold FFDB.quickGo
    by_cases hP : 1 < P.length
    · rw [if_pos hP]
      have hne : P ≠ [] := by
        intro hq
        subst hq
        simp at hP
      obtain ⟨last, hgl⟩ : ∃ last, P.getLast? = some last := by
        cases hq : P.getLast? with
        | none => exact absurd (List.getLast?_eq_none_iff.mp hq) hne
        | some l => exact ⟨l, rfl⟩
      rw [hgl]
      dsimp only
      have hstop : last.start + last.size = s + specSumSizes P := by
        have h3 := nextStartFrom_contiguous P s hcP
        unfold nextStartFrom at h3
        rw [hgl] at h3
        exact h3
      rw [write_quick_partition_spec db P s _ hcP hnodupP hutfP hstop]
      dsimp only
      simp only [specQuickOut]
      rw [if_pos hP]
      refine congrArg some ?_
      rw [Prod.mk.injEq]
      refine ⟨rfl, by simp⟩
    · rw [if_neg hP]
      simp only [specQuickOut]
      rw [if_neg hP]
      refine congrArg some ?_
      rw [Prod.mk.injEq]
      refine ⟨rfl, by simp⟩
  | 0, r :: rest2, hlen, t, i, P, s, part, h1, h2, hcP, hcR, hnd, hutf => by
    simp at hlen
  | N + 1, r :: rest2, hlen, t, i, P, s, part, h1, h2, hcP, hcR, hnd, hutf => by
    obtain ⟨hr1, hr2⟩ := hcR
    by_cases hb : i % n = 0
    · have ht0 : t = 0 := by
        by_contra hne
        exact h1 0 (by omega) (by simpa using hb)
      subst ht0
      unfold FFDB.quickGo
      rw [if_pos hb]
      have hw : db.write_quick_partition s r.start P =
          some (specPart db.data P s) :=
        write_quick_partition_spec db P s r.start hcP (by
          have := hnd
          rw [List.map_append, List.nodup_append] at this
          exact this.1)
          (fun x hx => hutf x (List.mem_append.mpr (Or.inl hx))) hr1
      rw [hw]
      dsimp only
      have hrec := quickGo_spec db n hn N rest2 (by
          simp only [List.length_cons] at hlen
          omega)
        (n - 1) (i + 1) [r] r.start (part + 1)
        (by
          intro j hj hcon
          rw [show i + 1 + j = i + (1 + j) by omega, Nat.add_mod, hb,
            Nat.zero_add] at hcon
          have h4 : (1 + j) % n < n := Nat.mod_lt _ (by omega)
          rw [Nat.mod_eq_of_lt h4, Nat.mod_eq_of_lt (show 1 + j < n by omega)]
            at hcon
          omega)
        (by
          rw [show i + 1 + (n - 1) = i + n by omega, Nat.add_mod_right]
          exact hb)
        (by exact ⟨rfl, trivial⟩)
        (by
          have : r.start + specSumSizes [r] = r.start + r.size := by
            simp [specSumSizes]
          rw [this]
          exact hr2)
        (by
          have hsub : ((r :: rest2).map IndexRow.name).Sublist
              ((P ++ r :: rest2).map IndexRow.name) :=
            (List.sublist_append_right P (r :: rest2)).map IndexRow.name
          simpa using List.Nodup.sublist hsub hnd)
        (by
          intro x hx
          rw [List.singleton_append] at hx
          exact hutf x (List.mem_append.mpr (Or.inr hx)))
      rw [hrec]
      dsimp only
      have htake : (r :: rest2).take n = r :: rest2.take (n - 1) := by
        rw [show n = (n - 1) + 1 by omega]
        rfl
      have hdrop : (r :: rest2).drop n = rest2.drop (n - 1) := by
        rw [show n = (n - 1) + 1 by omega]
        rfl
      have hchk : specChunksN n (r :: rest2) =
          ((r :: rest2).take n) :: specChunksN n ((r :: rest2).drop n) := by
        simp only [specChunksN]
        rw [if_neg (by omega)]
      refine congrArg some ?_
      rw [Prod.mk.injEq]
      constructor
      · simp only [List.take_zero, List.append_nil, List.drop_zero]
        rw [hchk, htake, hdrop]
        rw [show specQuickOut db.data
            (P :: (r :: rest2.take (n - 1)) :: specChunksN n (rest2.drop (n - 1))) s =
            specPart db.data P s :: specQuickOut db.data
              ((r :: rest2.take (n - 1)) :: specChunksN n (rest2.drop (n - 1)))
              (s + specSumSizes P) from rfl]
        rw [← hr1]
        rfl
      · simp only [List.take_zero, List.append_nil, List.drop_zero]
        rw [hchk, hdrop]
        simp only [List.length_cons]
        omega
    · have ht : t ≠ 0 := by
        intro hq
        subst hq
        rw [Nat.add_zero] at h2
        exact hb h2
      unfold FFDB.quickGo
      rw [if_neg hb]
      have happrow : P ++ [r] =
          P ++ [(⟨r.name, nextStartFrom s P, r.size⟩ : IndexRow)] := by
        have : nextStartFrom s P = r.start := by
          rw [nextStartFrom_contiguous P s hcP]
          omega
        rw [this]
      have hcP2 : specContiguousFrom (P ++ [r]) s := by
        rw [happrow]
        exact specContiguousFrom_append_from r r.size P s hcP
      have hrec := quickGo_spec db n hn N rest2 (by
          simp only [List.length_cons] at hlen
          omega)
        (t - 1) (i + 1) (P ++ [r]) s part
        (by
          intro j hj
          have := h1 (j + 1) (by omega)
          rw [show i + (j + 1) = i + 1 + j by omega] at this
          exact this)
        (by
          rw [show i + 1 + (t - 1) = i + t by omega]
          exact h2)
        hcP2
        (by
          have hsz : s + specSumSizes (P ++ [r]) = r.start + r.size := by
            unfold specSumSizes
            rw [List.map_append, List.sum_append]
            simp only [List.map_cons, List.map_nil, List.sum_cons, List.sum_nil]
            have : specSumSizes P = (P.map IndexRow.size).sum := rfl
            omega
          rw [hsz]
          exact hr2)
        (by
          have : (P ++ [r]) ++ rest2 = P ++ r :: rest2 := by
            rw [List.append_assoc]
            rfl
          rw [this]
          exact hnd)
        (by
          intro x hx
          rw [List.append_assoc, List.singleton_append] at hx
          exact hutf x hx)
      rw [hrec]
      have htake : (r :: rest2).take t = r :: rest2.take (t - 1) := by
        rw [show t = (t - 1) + 1 by omega]
        rfl
      have hdrop : (r :: rest2).drop t = rest2.drop (t - 1) := by
        rw [show t = (t - 1) + 1 by omega]
        rfl
      rw [htake, hdrop]
      rw [show P ++ r :: rest2.take (t - 1) = (P ++ [r]) ++ rest2.take (t - 1) by
        rw [List.append_assoc]; rfl]

theorem specQuickOut_names (data : List Nat) :
    ∀ (gs : List (List IndexRow)) (s : Nat),
      (specQuickOut data gs s).map (fun p => p.1.index.map IndexRow.name) =
      (specKeepChunks gs).map (fun c => c.map IndexRow.name)
  | [], _ => rfl
  | [c], s => by
    simp only [specQuickOut, specKeepChunks]
    by_cases h : 1 < c.length
    · rw [if_pos h, if_pos h]
      simp [specPart, specRelocate_map_name]
    · rw [if_neg h, if_neg h]
      rfl
  | c :: c2 :: cs, s => by
    simp only [specQuickOut, specKeepChunks, List.map_cons]
    rw [specQuickOut_names data (c2 :: cs) (s + specSumSizes c)]
    simp [specPart, specRelocate_map_name]

/-- C9 (amended): for a contiguous-from-0 well-formed database whose
row names are valid UTF-8 (serializable by `write_to`) and `n ≥ 1`,
`quick_partition(n)` slices the ascending-start order into contiguous
runs whose FIRST run has `n - 1` records and whose later runs have
`n` records; each written partition is its run's rows re-based to
offset 0 plus the single byte range holding exactly the run's bytes,
a trailing run is flushed only when it has more than one record (so
when `n` divides the record count the last record is silently
dropped), and the returned counter is the number of groups (one more
than the written partitions when the trailing run is dropped). -/
theorem C9_quick_partition (db : FFDB) (n : Nat) (hn : 0 < n)
    (hwf : db.index.WF) (hcontig : specContiguousFrom db.index.index 0)
    (hutf : ∀ r ∈ db.index.index, utf8Valid r.name = true) :
    db.quick_partition n = some
      (specQuickOut db.data
        (db.index.index.take (n - 1) ::
          specChunksN n (db.index.index.drop (n - 1))) 0,
       1 + (db.index.index.take (n - 1) ::
          specChunksN n (db.index.index.drop (n - 1))).length - 1) ∧
    (db.quick_partition n).map (fun pr =>
        pr.1.map (fun p => p.1.index.map IndexRow.name)) =
      some ((specQuickChunks n db.index.index).map
        (fun c => c.map IndexRow.name)) := by
  have hgo := quickGo_spec db n hn db.index.index.length db.index.index
    (le_refl _) (n - 1) 1 [] 0 1
    (by
      intro j hj hcon
      rw [Nat.mod_eq_of_lt (by omega)] at hcon
      omega)
    (by
      rw [show 1 + (n - 1) = n by omega]
      exact Nat.mod_self n)
    trivial
    (by
      have : (0 : Nat) + specSumSizes [] = 0 := rfl
      rw [this]
      exact hcontig)
    (by simpa using hwf.1)
    (by simpa using hutf)
  have hqp : db.quick_partition n = db.quickGo n db.index.index 1 0 [] 1 := by
    unfold FFDB.quick_partition
    rw [if_neg (by omega)]
  rw [hqp, hgo]
  simp only [List.nil_append]
  constructor
  · trivial
  · simp only [Option.map]
    rw [specQuickOut_names]
    rfl

/-- C9 counterexample: five unit-size records, `n = 2`.  The claim
says the partitions are contiguous runs of `n = 2` records (with a
final single leftover dropped), i.e. row-name groups
`[[a,b],[c,d]]`; the code actually writes `[[a],[b,c],[d,e]]` — the
first partition holds only `n - 1 = 1` record. -/
theorem C9_counterexample :
    (FFDB.quick_partition
        (FFDB.mk [0, 0, 0, 0, 0]
          ⟨[⟨[97], 0, 1⟩, ⟨[98], 1, 1⟩, ⟨[99], 2, 1⟩, ⟨[100], 3, 1⟩,
            ⟨[101], 4, 1⟩],
           [([97], ⟨[97], 0, 1⟩), ([98], ⟨[98], 1, 1⟩), ([99], ⟨[99], 2, 1⟩),
            ([100], ⟨[100], 3, 1⟩), ([101], ⟨[101], 4, 1⟩)]⟩) 2).map
      (fun pr => pr.1.map (fun p => p.1.index.map IndexRow.name)) =
      some [[[97]], [[98], [99]], [[100], [101]]] ∧
    (FFDB.quick_partition
        (FFDB.mk [0, 0, 0, 0, 0]
          ⟨[⟨[97], 0, 1⟩, ⟨[98], 1, 1⟩, ⟨[99], 2, 1⟩, ⟨[100], 3, 1⟩,
            ⟨[101], 4, 1⟩],
           [([97], ⟨[97], 0, 1⟩), ([98], ⟨[98], 1, 1⟩), ([99], ⟨[99], 2, 1⟩),
            ([100], ⟨[100], 3, 1⟩), ([101], ⟨[101], 4, 1⟩)]⟩) 2).map
      (fun pr => pr.1.map (fun p => p.1.index.map IndexRow.name)) ≠
      some [[[97], [98]], [[99], [100]]] := by
  constructor
  · decide
  · decide

/-- C9 witness: the amended description applied concretely — and when
`n` divides the record count (four records, `n = 2`) the final single
leftover really is dropped while the returned counter still counts
it. -/
theorem C9_witness :
    FFDB.quick_partition
      (FFDB.mk [0, 0, 0, 0]
        ⟨[⟨[97], 0, 1⟩, ⟨[98], 1, 1⟩, ⟨[99], 2, 1⟩, ⟨[100], 3, 1⟩],
         [([97], ⟨[97], 0, 1⟩), ([98], ⟨[98], 1, 1⟩), ([99], ⟨[99], 2, 1⟩),
          ([100], ⟨[100], 3, 1⟩)]⟩) 2 = some
      (specQuickOut
        (FFDB.mk [0, 0, 0, 0]
          ⟨[⟨[97], 0, 1⟩, ⟨[98], 1, 1⟩, ⟨[99], 2, 1⟩, ⟨[100], 3, 1⟩],
           [([97], ⟨[97], 0, 1⟩), ([98], ⟨[98], 1, 1⟩), ([99], ⟨[99], 2, 1⟩),
            ([100], ⟨[100], 3, 1⟩)]⟩).data
        ((FFDB.mk [0, 0, 0, 0]
          ⟨[⟨[97], 0, 1⟩, ⟨[98], 1, 1⟩, ⟨[99], 2, 1⟩, ⟨[100], 3, 1⟩],
           [([97], ⟨[97], 0, 1⟩), ([98], ⟨[98], 1, 1⟩),
            ([99], ⟨[99], 2, 1⟩), ([100], ⟨[100], 3, 1⟩)]⟩).index.index.take
            (2 - 1) ::
          specChunksN 2
            ((FFDB.mk [0, 0, 0, 0]
              ⟨[⟨[97], 0, 1⟩, ⟨[98], 1, 1⟩, ⟨[99], 2, 1⟩, ⟨[100], 3, 1⟩],
               [([97], ⟨[97], 0, 1⟩), ([98], ⟨[98], 1, 1⟩),
                ([99], ⟨[99], 2, 1⟩), ([100], ⟨[100], 3, 1⟩)]⟩).index.index.drop
              (2 - 1))) 0,
       1 + ((FFDB.mk [0, 0, 0, 0]
          ⟨[⟨[97], 0, 1⟩, ⟨[98], 1, 1⟩, ⟨[99], 2, 1⟩, ⟨[100], 3, 1⟩],
           [([97], ⟨[97], 0, 1⟩), ([98], ⟨[98], 1, 1⟩), ([99], ⟨[99], 2, 1⟩),
            ([100], ⟨[100], 3, 1⟩)]⟩).index.index.take (2 - 1) ::
          specChunksN 2
            ((FFDB.mk [0, 0, 0, 0]
              ⟨[⟨[97], 0, 1⟩, ⟨[98], 1, 1⟩, ⟨[99], 2, 1⟩, ⟨[100], 3, 1⟩],
               [([97], ⟨[97], 0, 1⟩), ([98], ⟨[98], 1, 1⟩),
                ([99], ⟨[99], 2, 1⟩), ([100], ⟨[100], 3, 1⟩)]⟩).index.index.drop
              (2 - 1))).length - 1) ∧
    (FFDB.quick_partition
        (FFDB.mk [0, 0, 0, 0]
          ⟨[⟨[97], 0, 1⟩, ⟨[98], 1, 1⟩, ⟨[99], 2, 1⟩, ⟨[100], 3, 1⟩],
           [([97], ⟨[97], 0, 1⟩), ([98], ⟨[98], 1, 1⟩), ([99], ⟨[99], 2, 1⟩),
            ([100], ⟨[100], 3, 1⟩)]⟩) 2).map
      (fun pr => pr.1.map (fun p => p.1.index.map IndexRow.name)) =
      some ((specQuickChunks 2
        (FFDB.mk [0, 0, 0, 0]
          ⟨[⟨[97], 0, 1⟩, ⟨[98], 1, 1⟩, ⟨[99], 2, 1⟩, ⟨[100], 3, 1⟩],
           [([97], ⟨[97], 0, 1⟩), ([98], ⟨[98], 1, 1⟩), ([99], ⟨[99], 2, 1⟩),
            ([100], ⟨[100], 3, 1⟩)]⟩).index.index).map
        (fun c => c.map IndexRow.name)) :=
  C9_quick_partition
    (FFDB.mk [0, 0, 0, 0]
      ⟨[⟨[97], 0, 1⟩, ⟨[98], 1, 1⟩, ⟨[99], 2, 1⟩, ⟨[100], 3, 1⟩],
       [([97], ⟨[97], 0, 1⟩), ([98], ⟨[98], 1, 1⟩), ([99], ⟨[99], 2, 1⟩),
        ([100], ⟨[100], 3, 1⟩)]⟩) 2 (by decide) (by decide) (by decide)
    (by decide)

/-! ### C2: serialize / parse round trip -/

/-- With enough fuel, `decDigits` computes `Nat.digits 10`. -/
theorem decDigits_eq_digits : ∀ (fuel n : Nat), n ≤ fuel →
    decDigits fuel n = Nat.digits 10 n
  | fuel, 0, _ => by cases fuel <;> simp [decDigits]
  | 0, n + 1, h => absurd h (by omega)
  | fuel + 1, n + 1, _h => by
    rw [show decDigits (fuel + 1) (n + 1) =
        ((n + 1) % 10) :: decDigits fuel ((n + 1) / 10) from rfl]
    rw [Nat.digits_def' (by norm_num : (1 : Nat) < 10) (Nat.succ_pos n)]
    congr 1
    refine decDigits_eq_digits fuel ((n + 1) / 10) ?_
    have : (n + 1) / 10 < n + 1 := Nat.div_lt_self (Nat.succ_pos n) (by norm_num)
    omega

/-- Parsing a rendered digit string accumulates the digits in base 10. -/
theorem parseDecGo_digits : ∀ (ds : List Nat) (a : Nat), (∀ d ∈ ds, d < 10) →
    parseDecGo a (ds.map (fun d => d + 48)) =
      some (a * 10 ^ ds.length + Nat.ofDigits 10 ds.reverse)
  | [], a, _ => by simp [parseDecGo, Nat.ofDigits_nil]
  | e :: ds, a, h => by
    have he : e < 10 := h e (List.mem_cons_self e ds)
    have hd : ∀ d ∈ ds, d < 10 := fun d hd => h d (List.mem_cons_of_mem e hd)
    rw [List.map_cons]
    unfold parseDecGo
    rw [if_pos (by omega : 48 ≤ e + 48 ∧ e + 48 ≤ 57)]
    rw [show e + 48 - 48 = e from by omega]
    rw [parseDecGo_digits ds (a * 10 + e) hd]
    congr 1
    rw [List.reverse_cons, Nat.ofDigits_append, Nat.ofDigits_singleton,
      List.length_reverse, List.length_cons, pow_succ]
    ring

/-- Rendering and re-parsing a decimal number is the identity. -/
theorem parseDec_renderDec (n : Nat) : parseDec (renderDec n) = some n := by
  by_cases h : n = 0
  · subst h; decide
  · unfold renderDec
    rw [if_neg h, decDigits_eq_digits n n le_rfl]
    unfold parseDec
    rw [if_neg (by simp [Nat.digits_ne_nil_iff_ne_zero, h] :
      ¬(Nat.digits 10 n).reverse.map (fun d => d + 48) = [])]
    rw [parseDecGo_digits _ 0
      (fun d hd => Nat.digits_lt_base (by norm_num) (List.mem_reverse.mp hd))]
    simp [Nat.ofDigits_digits]

/-- Every byte of a rendered decimal is an ASCII digit. -/
theorem renderDec_digit (n : Nat) : ∀ b ∈ renderDec n, 48 ≤ b ∧ b ≤ 57 := by
  intro b hb
  unfold renderDec at hb
  by_cases h : n = 0
  · rw [if_pos h] at hb
    simp at hb
    omega
  · rw [if_neg h, decDigits_eq_digits n n le_rfl] at hb
    rw [List.mem_map] at hb
    obtain ⟨d, hd, rfl⟩ := hb
    have : d < 10 := Nat.digits_lt_base (by norm_num) (List.mem_reverse.mp hd)
    omega

/-- A rendered decimal is never the empty byte string. -/
theorem renderDec_ne_nil (n : Nat) : renderDec n ≠ [] := by
  unfold renderDec
  by_cases h : n = 0
  · rw [if_pos h]; simp
  · rw [if_neg h, decDigits_eq_digits n n le_rfl]
    simp [Nat.digits_ne_nil_iff_ne_zero, h]

/-- Digit bytes are not ASCII whitespace. -/
theorem renderDec_not_ws (n : Nat) : ∀ b ∈ renderDec n, isWS b = false := by
  intro b hb
  have hd := renderDec_digit n b hb
  simp only [isWS, Bool.or_eq_false_iff, decide_eq_false_iff_not]
  omega

/-- Unfolding equation of `splitWSGo` on a cons. -/
theorem splitWSGo_cons (cur : List Nat) (b : Nat) (l : List Nat) :
    splitWSGo cur (b :: l) =
      if isWS b then (if cur = [] then splitWSGo [] l else cur :: splitWSGo [] l)
      else splitWSGo (cur ++ [b]) l := rfl

/-- Unfolding equation of `splitWSGo` on nil. -/
theorem splitWSGo_nil (cur : List Nat) :
    splitWSGo cur [] = if cur = [] then [] else [cur] := rfl

/-- A whitespace-free prefix is accumulated whole into the current
token by the splitter. -/
theorem splitWSGo_token (rest : List Nat) :
    ∀ (t cur : List Nat), (∀ b ∈ t, isWS b = false) →
      splitWSGo cur (t ++ rest) = splitWSGo (cur ++ t) rest
  | [], cur, _ => by simp
  | b :: t, cur, h => by
    have hb : isWS b = false := h b (List.mem_cons_self b t)
    rw [List.cons_append, splitWSGo_cons, hb, if_neg Bool.false_ne_true]
    rw [splitWSGo_token rest t (cur ++ [b])
      (fun x hx => h x (List.mem_cons_of_mem b hx))]
    have hsh : (cur ++ [b]) ++ t = cur ++ b :: t := by simp
    rw [hsh]

/-- A whitespace byte flushes a non-empty current token. -/
theorem splitWSGo_ws_flush (w : Nat) (hw : isWS w = true) (cur : List Nat)
    (hcur : cur ≠ []) (rest : List Nat) :
    splitWSGo cur (w :: rest) = cur :: splitWSGo [] rest := by
  rw [splitWSGo_cons, hw, if_pos rfl, if_neg hcur]

/-- A single non-empty whitespace-free token splits into itself. -/
theorem splitWSGo_last (l : List Nat) (hl : l ≠ [])
    (hws : ∀ b ∈ l, isWS b = false) : splitWSGo [] l = [l] := by
  have h := splitWSGo_token [] l [] hws
  rw [List.append_nil, List.nil_append] at h
  rw [h, splitWSGo_nil, if_neg hl]

/-- Splitting a stripped three-field line on whitespace recovers the
three fields when each is non-empty and whitespace-free. -/
theorem splitWS_fields (na ds dz : List Nat)
    (hn : na ≠ []) (hnws : ∀ b ∈ na, isWS b = false)
    (hds : ds ≠ []) (hdws : ∀ b ∈ ds, isWS b = false)
    (hdz : dz ≠ []) (hzws : ∀ b ∈ dz, isWS b = false) :
    splitWS (na ++ (9 :: (ds ++ (9 :: dz)))) = [na, ds, dz] := by
  unfold splitWS
  rw [splitWSGo_token _ na [] hnws, List.nil_append]
  rw [splitWSGo_ws_flush 9 (by decide) na hn]
  rw [splitWSGo_token _ ds [] hdws, List.nil_append]
  rw [splitWSGo_ws_flush 9 (by decide) ds hds]
  rw [splitWSGo_last dz hdz hzws]

/-- `lstrip` is the identity on a string starting with a
non-whitespace byte. -/
theorem lstripBytes_cons (b : Nat) (hb : isWS b = false) (l : List Nat) :
    lstripBytes (b :: l) = b :: l := by
  unfold lstripBytes
  rw [List.dropWhile_cons, hb, if_neg Bool.false_ne_true]

/-- `rstrip` of a string ending in one whitespace byte after a
non-whitespace byte drops exactly that last byte. -/
theorem rstripBytes_concat (A : List Nat) (w : Nat) (hw : isWS w = true)
    (hA : ∃ d, A.getLast? = some d ∧ isWS d = false) :
    rstripBytes (A ++ [w]) = A := by
  obtain ⟨d, hd, hdws⟩ := hA
  unfold rstripBytes
  rw [List.reverse_append, show ([w] : List Nat).reverse = [w] from rfl,
    List.singleton_append]
  rw [List.dropWhile_cons, hw, if_pos rfl]
  obtain ⟨b, bs, hrev⟩ : ∃ b bs, A.reverse = b :: bs := by
    cases hc : A.reverse with
    | nil =>
      rw [List.reverse_eq_nil_iff] at hc
      subst hc
      simp at hd
    | cons b bs => exact ⟨b, bs, rfl⟩
  have hb : b = d := by
    have h1 : A.getLast? = some b := by
      rw [← List.head?_reverse, hrev]; rfl
    rw [hd] at h1
    exact (Option.some_inj.mp h1).symm
  subst hb
  rw [hrev, List.dropWhile_cons, hdws, if_neg Bool.false_ne_true]
  rw [← hrev, List.reverse_reverse]

/-- Stripping a serialized line removes the trailing newline and
nothing else.  The shape is stated with the left association produced
by `renderRow`. -/
theorem stripBytes_line (na ds dz : List Nat)
    (hn : na ≠ []) (hnws : ∀ b ∈ na, isWS b = false)
    (hdz : dz ≠ []) (hzws : ∀ b ∈ dz, isWS b = false) :
    stripBytes (((na ++ (9 :: ds)) ++ (9 :: dz)) ++ [10]) =
      (na ++ (9 :: ds)) ++ (9 :: dz) := by
  have hlast : ∃ d, ((na ++ (9 :: ds)) ++ (9 :: dz)).getLast? = some d ∧
      isWS d = false := by
    refine ⟨dz.getLast hdz, ?_, hzws _ (List.getLast_mem hdz)⟩
    have hsh2 : (na ++ (9 :: ds)) ++ (9 :: dz) = ((na ++ (9 :: ds)) ++ [9]) ++ dz := by
      simp
    rw [hsh2, List.getLast?_append_of_ne_nil _ hdz, List.getLast?_eq_getLast dz hdz]
  unfold stripBytes
  rw [rstripBytes_concat _ 10 (by decide) hlast]
  obtain ⟨b, na', rfl⟩ : ∃ b na', na = b :: na' := by
    cases na with
    | nil => exact absurd rfl hn
    | cons b na' => exact ⟨b, na', rfl⟩
  have hsh3 : ((b :: na') ++ (9 :: ds)) ++ (9 :: dz) =
      b :: ((na' ++ (9 :: ds)) ++ (9 :: dz)) := by simp
  rw [hsh3, lstripBytes_cons b (hnws b (List.mem_cons_self b na')) _]

/-- Parsing a rendered row recovers the row exactly, for a storable
name. -/
theorem parse_renderRow (r : IndexRow) (h : specGoodName r.name) :
    parse_ffindex_line (renderRow r) = some r := by
  obtain ⟨hne, hws, _⟩ := h
  unfold parse_ffindex_line renderRow
  rw [stripBytes_line r.name (renderDec r.start) (renderDec r.size) hne hws
    (renderDec_ne_nil r.size) (renderDec_not_ws r.size)]
  have hre : (r.name ++ (9 :: renderDec r.start)) ++ (9 :: renderDec r.size) =
      r.name ++ (9 :: (renderDec r.start ++ (9 :: renderDec r.size))) := by simp
  rw [hre]
  rw [splitWS_fields r.name (renderDec r.start) (renderDec r.size) hne hws
    (renderDec_ne_nil r.start) (renderDec_not_ws r.start)
    (renderDec_ne_nil r.size) (renderDec_not_ws r.size)]
  dsimp only
  rw [parseDec_renderDec r.start, parseDec_renderDec r.size]

/-- Unfolding equation of `fileLinesGo` on a cons. -/
theorem fileLinesGo_cons (cur : List Nat) (b : Nat) (l : List Nat) :
    fileLinesGo cur (b :: l) =
      if b = 10 then (cur ++ [b]) :: fileLinesGo [] l
      else fileLinesGo (cur ++ [b]) l := rfl

/-- A newline-free chunk followed by a newline becomes one yielded
line of the file iteration. -/
theorem fileLinesGo_chunk (rest : List Nat) :
    ∀ (c acc : List Nat), (∀ b ∈ c, b ≠ 10) →
      fileLinesGo acc (c ++ 10 :: rest) = ((acc ++ c) ++ [10]) :: fileLinesGo [] rest
  | [], acc, _ => by
    rw [List.nil_append, fileLinesGo_cons, if_pos rfl, List.append_nil]
  | b :: c, acc, h => by
    have hb : b ≠ 10 := h b (List.mem_cons_self b c)
    rw [List.cons_append, fileLinesGo_cons, if_neg hb]
    rw [fileLinesGo_chunk rest c (acc ++ [b])
      (fun x hx => h x (List.mem_cons_of_mem b hx))]
    have hsh : (acc ++ [b]) ++ c = acc ++ b :: c := by simp
    rw [hsh]

/-- No byte of a rendered row other than its final one is a newline,
for a whitespace-free name. -/
theorem renderRow_body_no_nl (r : IndexRow) (hws : ∀ b ∈ r.name, isWS b = false) :
    ∀ b ∈ (r.name ++ (9 :: renderDec r.start)) ++ (9 :: renderDec r.size), b ≠ 10 := by
  intro b hb
  rw [List.mem_append] at hb
  rcases hb with h | h
  · rw [List.mem_append] at h
    rcases h with h | h
    · have hf := hws b h
      intro he
      subst he
      simp [isWS] at hf
    · rw [List.mem_cons] at h
      rcases h with h | h
      · omega
      · have := renderDec_digit r.start b h
        omega
  · rw [List.mem_cons] at h
    rcases h with h | h
    · omega
    · have := renderDec_digit r.size b h
      omega

/-- Iterating a file whose content is a concatenation of rendered
rows yields exactly those rendered rows as lines. -/
theorem fileLinesGo_rendered :
    ∀ (rows : List IndexRow), (∀ r ∈ rows, ∀ b ∈ r.name, isWS b = false) →
      fileLinesGo [] ((rows.map renderRow).flatten) = rows.map renderRow
  | [], _ => by decide
  | r :: rows, h => by
    rw [List.map_cons, List.flatten_cons]
    have hsh : renderRow r ++ (rows.map renderRow).flatten =
        ((r.name ++ (9 :: renderDec r.start)) ++ (9 :: renderDec r.size)) ++
          10 :: (rows.map renderRow).flatten := by
      unfold renderRow
      simp
    rw [hsh]
    rw [fileLinesGo_chunk _ _ [] (renderRow_body_no_nl r (h r (List.mem_cons_self r rows)))]
    rw [fileLinesGo_rendered rows (fun x hx => h x (List.mem_cons_of_mem r hx))]
    rw [List.nil_append]
    rfl

/-- Parsing the rendered lines of a row list gives back the rows. -/
theorem parseAllLines_render :
    ∀ (rows : List IndexRow), (∀ r ∈ rows, specGoodName r.name) →
      parseAllLines (rows.map renderRow) = some rows
  | [], _ => rfl
  | r :: rows, h => by
    rw [List.map_cons]
    unfold parseAllLines
    rw [parse_renderRow r (h r (List.mem_cons_self r rows)),
      parseAllLines_render rows (fun x hx => h x (List.mem_cons_of_mem r hx))]

/-- The serialization loop succeeds on rows with UTF-8-valid names
and produces the concatenation of the rendered rows. -/
theorem serializeRows_flatten :
    ∀ (rows : List IndexRow), (∀ r ∈ rows, utf8Valid r.name = true) →
      serializeRows rows = some (rows.map renderRow).flatten
  | [], _ => rfl
  | r :: rows, h => by
    unfold serializeRows
    rw [h r (List.mem_cons_self r rows), if_pos rfl]
    rw [serializeRows_flatten rows (fun x hx => h x (List.mem_cons_of_mem r hx))]
    rw [List.map_cons, List.flatten_cons]
    rfl

/-- The constructor succeeds exactly when names are unique, sorting
the rows by start and building the lookup in that order. -/
theorem FFIndex.init_of_nodup (rows : List IndexRow)
    (h : ((sortByStart rows).map IndexRow.name).Nodup) :
    FFIndex.init rows =
      some ⟨sortByStart rows, (sortByStart rows).map (fun r => (r.name, r))⟩ := by
  unfold FFIndex.init
  rw [buildLookup_nodup (sortByStart rows) [] (by simpa using h)]
  rfl

/-- C2: for every well-formed index whose row names are storable in
the text format (non-empty, whitespace-free, valid UTF-8),
serializing with `write_to` and re-parsing with `from_file` succeeds
and yields an index containing exactly the same rows — a permutation
of the originals (the parsed index is re-sorted by start), with the
lookup rebuilt consistently — irrespective of the original insertion
order. -/
theorem C2_roundtrip (idx : FFIndex) (hwf : idx.WF)
    (hgood : ∀ r ∈ idx.index, specGoodName r.name) :
    ∃ out idx2, idx.write_to = some out ∧ FFIndex.from_file out = some idx2 ∧
      idx2.index.Perm idx.index ∧ idx2.WF := by
  have hperm1 : (sortByName idx.index).Perm idx.index := insertionSort_perm _ _
  have hgood' : ∀ r ∈ sortByName idx.index, specGoodName r.name :=
    fun r hr => hgood r (hperm1.mem_iff.mp hr)
  have hout : idx.write_to = some ((sortByName idx.index).map renderRow).flatten := by
    unfold FFIndex.write_to
    exact serializeRows_flatten _ (fun r hr => (hgood' r hr).2.2)
  have hperm2 : (sortByStart (sortByName idx.index)).Perm idx.index :=
    (insertionSort_perm _ _).trans hperm1
  have hnodup : ((sortByStart (sortByName idx.index)).map IndexRow.name).Nodup :=
    ((hperm2.map IndexRow.name).nodup_iff).mpr hwf.1
  have hff : FFIndex.from_file (((sortByName idx.index).map renderRow).flatten) =
      some ⟨sortByStart (sortByName idx.index),
        (sortByStart (sortByName idx.index)).map (fun r => (r.name, r))⟩ := by
    unfold FFIndex.from_file fileLines
    rw [fileLinesGo_rendered _ (fun r hr => (hgood' r hr).2.1)]
    rw [parseAllLines_render _ hgood']
    rw [Option.some_bind]
    exact FFIndex.init_of_nodup _ hnodup
  exact ⟨_, _, hout, hff, hperm2, hnodup, rfl⟩

/-- C2 counterexample: the claim quantifies over every index, but a
well-formed index whose row name contains an ASCII space — which
`append` and the constructor accept — serializes to a line with four
whitespace-separated fields, so re-parsing raises `ValueError`
(`from_file` returns no index at all, not one with the same rows). -/
theorem C2_counterexample :
    ((FFIndex.write_to ⟨[⟨[97, 32, 98], 0, 5⟩], [([97, 32, 98], ⟨[97, 32, 98], 0, 5⟩)]⟩).bind
        FFIndex.from_file).isSome = false ∧
      (⟨[⟨[97, 32, 98], 0, 5⟩], [([97, 32, 98], ⟨[97, 32, 98], 0, 5⟩)]⟩ : FFIndex).WF := by
  decide

/-- C2 witness: a two-row index (inserted in non-name order) round
trips through `write_to` and `from_file` to the same set of rows. -/
theorem C2_witness :
    ∃ out idx2,
      FFIndex.write_to ⟨[⟨[98], 0, 3⟩, ⟨[97], 3, 2⟩],
        [([98], ⟨[98], 0, 3⟩), ([97], ⟨[97], 3, 2⟩)]⟩ = some out ∧
      FFIndex.from_file out = some idx2 ∧
      idx2.index.Perm [⟨[98], 0, 3⟩, ⟨[97], 3, 2⟩] ∧ idx2.WF :=
  C2_roundtrip ⟨[⟨[98], 0, 3⟩, ⟨[97], 3, 2⟩],
    [([98], ⟨[98], 0, 3⟩), ([97], ⟨[97], 3, 2⟩)]⟩ (by decide) (by decide)
